import Mathlib

/-!
Shallow embedding of the open-lmake build engine core, with theorems settling
the claims of the natural-language specification against the source.

Each section embeds one part of the source (file and function named in the
doc comments) and proves the corresponding claims.  Machine integers are
modelled as Nat (no overflow is relevant to the claims below), fallible code
returns Option, and on-disk state is modelled as explicit maps.
-/

namespace Lmake

/-! ## Common enums (src/rpc_job.hh, src/lmakeserver/node.x.hh)

Bool3 is the ubiquitous tri-state No/Maybe/Yes used all over the source.
-/

inductive Bool3 where
| no    : Bool3
| maybe : Bool3
| yes   : Bool3
deriving DecidableEq, Repr

/-- Accesses is BitMap of Access in {Lnk, Reg, Stat} (DepAccess in src/rpc_job.hh):
the kinds of file content a syscall perceived. -/
structure Accesses where
  lnk  : Bool
  reg  : Bool
  stat : Bool
deriving DecidableEq, Repr

/-- The full bitmap, written ~Accesses() in the source. -/
def Accesses.all : Accesses := ⟨true, true, true⟩

/-- Modelled from the spec: the CRC type (src/hash.hh is not part of src/).
Per the spec glossary, a CRC "distinguishes file states; None means absent,
Empty means an empty file, otherwise a typed digest (link vs regular)",
plus an Unknown placeholder for a not-yet-computed value. -/
inductive Crc where
| none    : Crc
| empty   : Crc
| unknown : Crc
| lnk     : Nat → Crc
| reg     : Nat → Crc
deriving DecidableEq, Repr

/-- A Crc is valid when it represents a definite file state (not Unknown). -/
def Crc.valid : Crc → Bool
| .unknown => false
| _        => true

def Crc.is_lnk : Crc → Bool
| .lnk _ => true
| _      => false

def Crc.is_reg : Crc → Bool
| .reg _ => true
| _      => false

/-- Modelled from the spec: the set of accesses under which the difference
between two file states can be perceived (Crc::diff_accesses).  Per the spec
(section 4.5): "a Stat access invalidates whenever inode changes, a Lnk access
only when the link content changes, etc.", and NodeData::read in
src/lmakeserver/node.x.hh shows the access classification: a link content
change is perceived through Lnk accesses, a regular content change through Reg
accesses, and an existence or file-type change through any access (including
Stat).  An invalid (Unknown) CRC is perceived as different under any access. -/
def Crc.diff_accesses (a b : Crc) : Accesses :=
  if a.valid = false ∨ b.valid = false then Accesses.all
  else if a = b then ⟨false, false, false⟩
  else if a.is_lnk ∧ b.is_lnk then ⟨true, false, false⟩
  else if a.is_reg ∧ b.is_reg then ⟨false, true, false⟩
  else Accesses.all

/-- Modelled from the spec: Crc::match, true when no access in a can perceive
the difference between the two CRCs. -/
def Crc.match' (a b : Crc) (acc : Accesses) : Bool :=
  let d := Crc.diff_accesses a b
  !(d.lnk && acc.lnk || d.reg && acc.reg || d.stat && acc.stat)

theorem Crc.diff_accesses_comm (a b : Crc) : Crc.diff_accesses a b = Crc.diff_accesses b a := by
  unfold Crc.diff_accesses
  by_cases h1 : a.valid = false ∨ b.valid = false
  · simp [h1, or_comm.mp h1]
  · have h2 : ¬(b.valid = false ∨ a.valid = false) := fun h => h1 (or_comm.mp h)
    by_cases he : a = b
    · simp [h1, h2, he]
    · have he' : ¬b = a := fun h => he h.symm
      simp only [if_neg h1, if_neg h2, if_neg he, if_neg he']
      by_cases hl : a.is_lnk ∧ b.is_lnk
      · simp [hl, and_comm.mp hl]
      · have hl' : ¬(b.is_lnk ∧ a.is_lnk) := fun h => hl (and_comm.mp h)
        simp only [if_neg hl, if_neg hl']
        by_cases hr : a.is_reg ∧ b.is_reg
        · simp [hr, and_comm.mp hr]
        · have hr' : ¬(b.is_reg ∧ a.is_reg) := fun h => hr (and_comm.mp h)
          simp [hr, hr']

theorem Crc.match_comm (a b : Crc) (acc : Accesses) :
    Crc.match' a b acc = Crc.match' b a acc := by
  unfold Crc.match'
  rw [Crc.diff_accesses_comm]

/-! ## Dep digests (spec section 3; the DepDigestBase template is not in src/)

Modelled from the spec: "Dep digest (per-file, per-job): a Node plus accesses
(bitmap of Stat/Lnk/Reg), dflags, a discriminated payload — either a CRC or a
(date,signature) — plus a parallel bit".  The discriminated payload is an
inductive; is_crc discriminates. -/

inductive DepPayload where
| crc : Crc → DepPayload
| sig : Nat → DepPayload
deriving DecidableEq, Repr

structure DepDigest where
  accesses : Accesses
  payload  : DepPayload
  parallel : Bool
  critical : Bool
deriving DecidableEq, Repr

def DepDigest.is_crc (dd : DepDigest) : Bool :=
  match dd.payload with
  | .crc _ => true
  | .sig _ => false

/-- The crc() accessor; the payload is discriminated, so it is only legitimate
when is_crc holds (the source asserts this); on a sig payload we return the
junk value Crc.unknown, which is never used guarded. -/
def DepDigest.crc (dd : DepDigest) : Crc :=
  match dd.payload with
  | .crc c => c
  | .sig _ => Crc.unknown

/-! ## C1 : up_to_date (src/lmakeserver/node.x.hh lines 426-428 and 622-624) -/

/-- NodeData::up_to_date (src/lmakeserver/node.x.hh:426):
return crc.match( dd.crc() , full?~Accesses():dd.accesses ).
The receiver's crc is passed explicitly as nodeCrc. -/
def NodeData.up_to_date (nodeCrc : Crc) (dd : DepDigest) (full : Bool) : Bool :=
  Crc.match' nodeCrc dd.crc (if full then Accesses.all else dd.accesses)

/-- Dep::up_to_date (src/lmakeserver/node.x.hh:622):
return is_crc && crc().match( (*this)->crc , full?~Accesses():accesses ).
The pointed-to node's crc is passed explicitly as nodeCrc. -/
def Dep.up_to_date (nodeCrc : Crc) (dd : DepDigest) (full : Bool) : Bool :=
  dd.is_crc && Crc.match' dd.crc nodeCrc (if full then Accesses.all else dd.accesses)

/-- The claim's right-hand side, written independently of the code: the node's
crc matches the dep digest's recorded crc under the given accesses.  A digest
that carries a date instead of a CRC records no crc, so nothing matches. -/
def matches_recorded_crc (nodeCrc : Crc) (dd : DepDigest) (acc : Accesses) : Prop :=
  ∃ c, dd.payload = DepPayload.crc c ∧ Crc.match' nodeCrc c acc = true

instance (nodeCrc : Crc) (dd : DepDigest) (acc : Accesses) :
    Decidable (matches_recorded_crc nodeCrc dd acc) := by
  unfold matches_recorded_crc
  cases h : dd.payload with
  | crc c =>
      by_cases hm : Crc.match' nodeCrc c acc = true
      · exact Decidable.isTrue ⟨c, rfl, hm⟩
      · refine Decidable.isFalse (fun hc => ?_)
        obtain ⟨c', hc', hm'⟩ := hc
        cases hc'
        exact hm hm'
  | sig s =>
      refine Decidable.isFalse (fun hc => ?_)
      obtain ⟨c', hc', _⟩ := hc
      cases hc'

theorem Dep.up_to_date_crc (dd : DepDigest) (c : Crc) (h : dd.payload = DepPayload.crc c) :
    dd.crc = c := by
  unfold DepDigest.crc
  rw [h]

theorem Dep.is_crc_of_payload (dd : DepDigest) (c : Crc) (h : dd.payload = DepPayload.crc c) :
    dd.is_crc = true := by
  unfold DepDigest.is_crc
  rw [h]

/-- C1 : for every node crc and every dep digest dd (including digests that
carry a date instead of a CRC), Dep::up_to_date(full=true) holds iff the node's
crc matches dd's recorded crc under all accesses, Dep::up_to_date(full=false)
holds iff it matches under exactly dd's recorded accesses, and
NodeData::up_to_date agrees on every digest that records a crc (on a
date-carrying digest the source asserts is_crc before reading the crc). -/
theorem uptodate_matches_crc (nodeCrc : Crc) (dd : DepDigest) :
    ( Dep.up_to_date nodeCrc dd true  = true ↔ matches_recorded_crc nodeCrc dd Accesses.all  ) ∧
    ( Dep.up_to_date nodeCrc dd false = true ↔ matches_recorded_crc nodeCrc dd dd.accesses ) ∧
    ( dd.is_crc = true →
        ( NodeData.up_to_date nodeCrc dd true  = true ↔ matches_recorded_crc nodeCrc dd Accesses.all  ) ∧
        ( NodeData.up_to_date nodeCrc dd false = true ↔ matches_recorded_crc nodeCrc dd dd.accesses ) ) := by
  cases hp : dd.payload with
  | crc c =>
      have hic : dd.is_crc = true := Dep.is_crc_of_payload dd c hp
      have hcc : dd.crc = c := Dep.up_to_date_crc dd c hp
      refine ⟨?_, ?_, fun _ => ⟨?_, ?_⟩⟩
      · unfold Dep.up_to_date
        rw [hic, hcc]
        simp only [Bool.true_and, if_pos rfl]
        constructor
        · intro hm
          exact ⟨c, hp, by rw [Crc.match_comm] ; exact hm⟩
        · rintro ⟨c', hc', hm⟩
          rw [hp] at hc'
          cases hc'
          rw [Crc.match_comm]
          exact hm
      · unfold Dep.up_to_date
        rw [hic, hcc]
        simp only [Bool.true_and, if_neg (Bool.false_ne_true)]
        constructor
        · intro hm
          exact ⟨c, hp, by rw [Crc.match_comm] ; exact hm⟩
        · rintro ⟨c', hc', hm⟩
          rw [hp] at hc'
          cases hc'
          rw [Crc.match_comm]
          exact hm
      · unfold NodeData.up_to_date
        rw [hcc]
        simp only [if_pos rfl]
        constructor
        · intro hm
          exact ⟨c, hp, hm⟩
        · rintro ⟨c', hc', hm⟩
          rw [hp] at hc'
          cases hc'
          exact hm
      · unfold NodeData.up_to_date
        rw [hcc]
        simp only [if_neg (Bool.false_ne_true)]
        constructor
        · intro hm
          exact ⟨c, hp, hm⟩
        · rintro ⟨c', hc', hm⟩
          rw [hp] at hc'
          cases hc'
          exact hm
  | sig s =>
      have hic : dd.is_crc = false := by
        unfold DepDigest.is_crc
        rw [hp]
      have hnom : ∀ acc, ¬matches_recorded_crc nodeCrc dd acc := by
        intro acc hc
        obtain ⟨c', hc', _⟩ := hc
        rw [hp] at hc'
        cases hc'
      refine ⟨?_, ?_, fun hic' => absurd hic' (by rw [hic] ; exact Bool.false_ne_true)⟩
      · unfold Dep.up_to_date
        rw [hic]
        simp only [Bool.false_and]
        exact ⟨fun h => absurd h Bool.false_ne_true, fun h => absurd h (hnom _)⟩
      · unfold Dep.up_to_date
        rw [hic]
        simp only [Bool.false_and]
        exact ⟨fun h => absurd h Bool.false_ne_true, fun h => absurd h (hnom _)⟩

/-- Witness for uptodate_matches_crc at a concrete input: a digest recording
Crc.reg 7 with Lnk-only accesses, against a node holding Crc.reg 9 (contents
differ but only through Reg accesses, which the digest did not use). -/
theorem uptodate_matches_crc_witness :
    ( Dep.up_to_date (Crc.reg 9) ⟨⟨true, false, false⟩, DepPayload.crc (Crc.reg 7), false, false⟩ false = true ↔
      matches_recorded_crc (Crc.reg 9) ⟨⟨true, false, false⟩, DepPayload.crc (Crc.reg 7), false, false⟩
        (DepDigest.accesses ⟨⟨true, false, false⟩, DepPayload.crc (Crc.reg 7), false, false⟩) ) :=
  (uptodate_matches_crc (Crc.reg 9) ⟨⟨true, false, false⟩, DepPayload.crc (Crc.reg 7), false, false⟩).2.1

end Lmake


namespace Lmake

/-! ## C3 : ChkDeps replies (src/lmakeserver/job.cc lines 307-341, Job::job_info)

For a running job, job_info(ChkDeps, deps) iterates the queried deps in order;
for each dep it iterates the running requests: if the dep is waiting for some
request it immediately replies Maybe; otherwise it accumulates the dep's error
state over the requests and, the requests exhausted, replies No if the dep is
in error; if the dep loop completes it replies Yes.

The per-(dep,request) outcome of the recursive Node::make call (waiting, and
Node::err on the resulting req-info — Node::err's definition is not part of
src/) is the input of the embedding: each queried dep is a row of
per-running-request (waiting, err) pairs, in request order. -/

structure DepReqState where
  waiting : Bool
  err     : Bool
deriving DecidableEq, Repr

/-- The inner request loop of Job::job_info for one dep: none when some request
finds the dep waiting (reply Maybe), otherwise the accumulated err flag. -/
def scan_reqs : List DepReqState → Option Bool
| [] => some false
| s :: rest =>
  if s.waiting = true then none
  else Option.map (fun e => e || s.err) (scan_reqs rest)

/-- The dep loop of Job::job_info(ChkDeps): Maybe at the first dep waiting for
some request, No at the first dep in error, Yes when the loop completes. -/
def chk_deps : List (List DepReqState) → Bool3
| [] => Bool3.yes
| d :: rest =>
  match scan_reqs d with
  | none       => Bool3.maybe
  | some true  => Bool3.no
  | some false => chk_deps rest

/-- A queried dep is waiting when some running request finds it waiting. -/
def dep_waiting (d : List DepReqState) : Prop := ∃ s ∈ d, s.waiting = true

/-- A queried dep is in error when no running request finds it waiting and some
running request finds it in error. -/
def dep_err (d : List DepReqState) : Prop :=
  (¬dep_waiting d) ∧ ∃ s ∈ d, s.err = true

/-- A dep passes the check: not waiting for any request and not in error. -/
def dep_clean (d : List DepReqState) : Prop := ¬dep_waiting d ∧ ¬dep_err d

theorem scan_reqs_none_iff (d : List DepReqState) :
    scan_reqs d = none ↔ dep_waiting d := by
  induction d with
  | nil => simp [scan_reqs, dep_waiting]
  | cons s rest ih =>
      rcases hw : s.waiting with - | -
      · simp only [scan_reqs, hw, if_neg Bool.false_ne_true, Option.map_eq_none', ih]
        unfold dep_waiting
        constructor
        · rintro ⟨t, ht, hwt⟩
          exact ⟨t, List.mem_cons_of_mem _ ht, hwt⟩
        · rintro ⟨t, ht, hwt⟩
          rcases List.mem_cons.mp ht with h | h
          · subst h ; rw [hw] at hwt ; cases hwt
          · exact ⟨t, h, hwt⟩
      · have hnone : scan_reqs (s :: rest) = none := by
          rw [scan_reqs, hw]
          exact if_pos rfl
        rw [hnone]
        constructor
        · intro _
          exact ⟨s, List.mem_cons_self _ _, hw⟩
        · intro _
          rfl

theorem scan_reqs_some_iff (d : List DepReqState) (e : Bool) :
    scan_reqs d = some e → (¬dep_waiting d ∧ (e = true ↔ ∃ s ∈ d, s.err = true)) := by
  induction d generalizing e with
  | nil =>
      intro h
      simp only [scan_reqs, Option.some_inj] at h
      subst h
      simp [dep_waiting]
  | cons s rest ih =>
      intro h
      rcases hw : s.waiting with - | -
      · rw [scan_reqs, hw, if_neg Bool.false_ne_true] at h
        rcases he' : scan_reqs rest with - | e'
        · rw [he'] at h ; cases h
        · rw [he', Option.map_some', Option.some_inj] at h
          obtain ⟨hnw, hiff⟩ := ih e' he'
          constructor
          · rintro ⟨t, ht, hwt⟩
            rcases List.mem_cons.mp ht with hh | hh
            · subst hh ; rw [hw] at hwt ; cases hwt
            · exact hnw ⟨t, hh, hwt⟩
          · subst h
            constructor
            · intro hor
              rcases Bool.or_eq_true_iff.mp hor with h1 | h1
              · obtain ⟨t, ht, hwt⟩ := hiff.mp h1
                exact ⟨t, List.mem_cons_of_mem _ ht, hwt⟩
              · exact ⟨s, List.mem_cons_self _ _, h1⟩
            · rintro ⟨t, ht, het⟩
              rcases List.mem_cons.mp ht with hh | hh
              · subst hh
                simp [het]
              · exact Bool.or_eq_true_iff.mpr (Or.inl (hiff.mpr ⟨t, hh, het⟩))
      · rw [scan_reqs, hw, if_pos rfl] at h
        cases h

theorem scan_reqs_cases (d : List DepReqState) :
    (scan_reqs d = none ∧ dep_waiting d) ∨
    (scan_reqs d = some true ∧ dep_err d) ∨
    (scan_reqs d = some false ∧ dep_clean d) := by
  rcases hs : scan_reqs d with - | e
  · exact Or.inl ⟨rfl, (scan_reqs_none_iff d).mp hs⟩
  · obtain ⟨hnw, hiff⟩ := scan_reqs_some_iff d e hs
    rcases e with - | -
    · refine Or.inr (Or.inr ⟨rfl, hnw, fun hc => ?_⟩)
      exact Bool.false_ne_true (hiff.mpr hc.2)
    · exact Or.inr (Or.inl ⟨rfl, hnw, hiff.mp rfl⟩)

theorem dep_waiting_not_clean (d : List DepReqState) (h : dep_waiting d) : ¬dep_clean d :=
  fun hc => hc.1 h

theorem dep_err_not_clean (d : List DepReqState) (h : dep_err d) : ¬dep_clean d :=
  fun hc => hc.2 h

/-- C3 counterexample : the claim states the reply is Maybe as soon as any
queried dep is still waiting for some running request; but when an earlier dep
is in error, job_info returns No at that dep and never examines the waiting
one.  Concretely, with one running request, a first dep in error (not waiting)
and a second dep waiting, the reply is No although a queried dep is waiting. -/
theorem chk_deps_claim_counterexample :
    chk_deps [[⟨false, true⟩], [⟨true, false⟩]] = Bool3.no ∧
    dep_waiting [(⟨true, false⟩ : DepReqState)] ∧
    chk_deps [[⟨false, true⟩], [⟨true, false⟩]] ≠ Bool3.maybe :=
  ⟨rfl, ⟨⟨true, false⟩, List.mem_cons_self _ _, rfl⟩, fun h => by cases h⟩

/-- C3 (amended) : scanning the queried deps in order, the reply is Maybe
exactly when a waiting dep is reached before any dep in error, No exactly when
a dep in error is reached before any waiting dep, and Yes exactly when every
queried dep is done and error-free. -/
theorem chk_deps_amended (deps : List (List DepReqState)) :
    ( chk_deps deps = Bool3.yes ↔ ∀ d ∈ deps, dep_clean d ) ∧
    ( chk_deps deps = Bool3.maybe ↔
        ∃ pre d post, deps = pre ++ d :: post ∧ dep_waiting d ∧ ∀ d' ∈ pre, dep_clean d' ) ∧
    ( chk_deps deps = Bool3.no ↔
        ∃ pre d post, deps = pre ++ d :: post ∧ dep_err d ∧ ∀ d' ∈ pre, dep_clean d' ) := by
  induction deps with
  | nil =>
      refine ⟨by simp [chk_deps], ?_, ?_⟩
      · constructor
        · intro h ; cases h
        · rintro ⟨pre, d, post, habs, -, -⟩
          exact absurd habs.symm (List.append_ne_nil_of_right_ne_nil pre (by simp))
      · constructor
        · intro h ; cases h
        · rintro ⟨pre, d, post, habs, -, -⟩
          exact absurd habs.symm (List.append_ne_nil_of_right_ne_nil pre (by simp))
  | cons d rest ih =>
      obtain ⟨ihy, ihm, ihn⟩ := ih
      rcases scan_reqs_cases d with ⟨hs, hd⟩ | ⟨hs, hd⟩ | ⟨hs, hd⟩
      · refine ⟨?_, ?_, ?_⟩
        · rw [chk_deps, hs]
          constructor
          · intro h ; cases h
          · intro h
            exact absurd hd (h d (List.mem_cons_self _ _)).1
        · rw [chk_deps, hs]
          constructor
          · intro _
            exact ⟨[], d, rest, rfl, hd, by simp⟩
          · intro _ ; rfl
        · rw [chk_deps, hs]
          constructor
          · intro h ; cases h
          · rintro ⟨pre, d', post, heq, herr, hpre⟩
            cases pre with
            | nil =>
                rw [List.nil_append] at heq
                cases heq
                exact absurd hd herr.1
            | cons p ps =>
                rw [List.cons_append] at heq
                injection heq with h1 h2
                subst h1
                exact absurd hd (hpre d (List.mem_cons_self _ _)).1
      · refine ⟨?_, ?_, ?_⟩
        · rw [chk_deps, hs]
          constructor
          · intro h ; cases h
          · intro h
            exact absurd hd (h d (List.mem_cons_self _ _)).2
        · rw [chk_deps, hs]
          constructor
          · intro h ; cases h
          · rintro ⟨pre, d', post, heq, hw, hpre⟩
            cases pre with
            | nil =>
                rw [List.nil_append] at heq
                cases heq
                exact absurd hw hd.1
            | cons p ps =>
                rw [List.cons_append] at heq
                injection heq with h1 h2
                subst h1
                exact absurd hd (hpre d (List.mem_cons_self _ _)).2
        · rw [chk_deps, hs]
          constructor
          · intro _
            exact ⟨[], d, rest, rfl, hd, by simp⟩
          · intro _ ; rfl
      · refine ⟨?_, ?_, ?_⟩
        · rw [chk_deps, hs, ihy]
          constructor
          · intro h d' hd'
            rcases List.mem_cons.mp hd' with hh | hh
            · rw [hh] ; exact hd
            · exact h d' hh
          · intro h d' hd'
            exact h d' (List.mem_cons_of_mem _ hd')
        · rw [chk_deps, hs, ihm]
          constructor
          · rintro ⟨pre, dd, post, heq, hw, hpre⟩
            refine ⟨d :: pre, dd, post, by rw [heq] ; simp, hw, ?_⟩
            intro d' hd'
            rcases List.mem_cons.mp hd' with hh | hh
            · rw [hh] ; exact hd
            · exact hpre d' hh
          · rintro ⟨pre, dd, post, heq, hw, hpre⟩
            cases pre with
            | nil =>
                rw [List.nil_append] at heq
                cases heq
                exact absurd hw hd.1
            | cons p ps =>
                rw [List.cons_append] at heq
                injection heq with h1 h2
                refine ⟨ps, dd, post, h2, hw, ?_⟩
                intro d' hd'
                exact hpre d' (h1 ▸ List.mem_cons_of_mem _ hd')
        · rw [chk_deps, hs, ihn]
          constructor
          · rintro ⟨pre, dd, post, heq, he, hpre⟩
            refine ⟨d :: pre, dd, post, by rw [heq] ; simp, he, ?_⟩
            intro d' hd'
            rcases List.mem_cons.mp hd' with hh | hh
            · rw [hh] ; exact hd
            · exact hpre d' hh
          · rintro ⟨pre, dd, post, heq, he, hpre⟩
            cases pre with
            | nil =>
                rw [List.nil_append] at heq
                cases heq
                exact absurd he hd.2
            | cons p ps =>
                rw [List.cons_append] at heq
                injection heq with h1 h2
                refine ⟨ps, dd, post, h2, he, ?_⟩
                intro d' hd'
                exact hpre d' (h1 ▸ List.mem_cons_of_mem _ hd')

end Lmake

namespace Lmake

/-! ## C9 : AutodepEnv string round trip (src/autodep/env.cc lines 22-65 and 67-97)

Strings are modelled as List Char.  The AutodepEnv structure itself is declared
in src/autodep/env.hh which is not part of src/; its fields and defaults are
modelled from the spec (section 4.2): service endpoint, option bitmap
(disabled, ignore-stat, auto-mkdir, reliable-dirs, link-support), source dir
prefixes, tmp dir, tmp view, root dir; an env constructed from a non-empty
string is active, an empty env disables autodep. -/

inductive LnkSupport where
| none : LnkSupport
| file : LnkSupport
| full : LnkSupport
deriving DecidableEq, Repr

structure AutodepEnv where
  active        : Bool            := true
  service       : List Char       := []
  disabled      : Bool            := false
  ignore_stat   : Bool            := false
  auto_mkdir    : Bool            := false
  reliable_dirs : Bool            := false
  lnk_support   : LnkSupport      := LnkSupport.full
  src_dirs_s    : List (List Char) := []
  tmp_dir       : List Char       := []
  tmp_view      : List Char       := []
  root_dir      : List Char       := []
deriving DecidableEq, Repr

/-- Modelled from the spec: mk_printable escapes a path for inclusion between
double quotes (the utility is not part of src/); quotes and backslashes are
escaped with a backslash. -/
def mk_printable (s : List Char) : List Char :=
  s.flatMap (fun c => if c = '"' ∨ c = '\\' then [ '\\', c ] else [c])

/-- Modelled from the spec: parse_printable, inverse of mk_printable; reads up
to the closing double quote and returns the decoded string together with what
follows the closing quote; an unterminated string is a failure. -/
def parse_printable : List Char → Option (List Char × List Char)
| [] => none
| [c] => if c = '"' then some ([], []) else none
| c :: d :: rest =>
  if c = '"' then some ([], d :: rest)
  else if c = '\\' then (parse_printable rest).map (fun p => (d :: p.1, p.2))
  else (parse_printable (d :: rest)).map (fun p => (c :: p.1, p.2))

/-- Helper of AutodepEnv::AutodepEnv : env.find of a colon, splitting off the
prefix before the first ':' (fails if there is none). -/
def splitAtColon : List Char → Option (List Char × List Char)
| [] => none
| c :: rest =>
  if c = ':' then some ([], rest)
  else (splitAtColon rest).map (fun p => (c :: p.1, p.2))

/-- The options loop of AutodepEnv::AutodepEnv (src/autodep/env.cc:35-45):
one char per option until the closing ':'; an unknown char is a failure. -/
def parseOptions (e : AutodepEnv) : List Char → Option (AutodepEnv × List Char)
| [] => none
| c :: rest =>
  if c = ':' then some (e, rest)
  else if c = 'd' then parseOptions { e with disabled      := true } rest
  else if c = 'i' then parseOptions { e with ignore_stat   := true } rest
  else if c = 'm' then parseOptions { e with auto_mkdir    := true } rest
  else if c = 'n' then parseOptions { e with lnk_support   := LnkSupport.none } rest
  else if c = 'f' then parseOptions { e with lnk_support   := LnkSupport.file } rest
  else if c = 'a' then parseOptions { e with lnk_support   := LnkSupport.full } rest
  else if c = 'r' then parseOptions { e with reliable_dirs := true } rest
  else none

/-- One double-quoted printable-escaped string (the SWEAR(env[pos]=='"') plus
parse_printable pattern of src/autodep/env.cc). -/
def parseQuoted : List Char → Option (List Char × List Char)
| [] => none
| c :: rest => if c = '"' then parse_printable rest else none

/-- One source-dir entry: a double-quoted printable-escaped dir that must end
in a slash (the SWEARs of src/autodep/env.cc:51-53). -/
def parseDirEntry (l : List Char) : Option (List Char × List Char) :=
  match parseQuoted l with
  | none => none
  | some (s, r) => if s.getLast? = some '/' then some (s, r) else none

/-- The source-dirs loop of AutodepEnv::AutodepEnv (src/autodep/env.cc:48-56):
a comma-separated list of double-quoted printable-escaped dirs, each required
to end in a slash, ended by ':'.  The loop is modelled with fuel (one unit per
parsed dir); the top-level parser passes the input length, always sufficient
since each dir consumes at least one input char. -/
def parseSrcDirs (first : Bool) (acc : List (List Char)) :
    List Char → Nat → Option (List (List Char) × List Char)
| _, 0 => none
| [], _ + 1 => none
| c :: rest, fuel + 1 =>
  if c = ':' then some (acc.reverse, rest)
  else if first then
    (parseDirEntry (c :: rest)).bind (fun p => parseSrcDirs false (p.1 :: acc) p.2 fuel)
  else if c = ',' then
    (parseDirEntry rest).bind (fun p => parseSrcDirs false (p.1 :: acc) p.2 fuel)
  else none

/-- Expect a ':' separator (the env[pos]!=':' goto Fail checks of
src/autodep/env.cc:58-59). -/
def expectColon : List Char → Option (List Char)
| [] => none
| c :: r => if c = ':' then some r else none

/-- AutodepEnv::AutodepEnv(::string const&) (src/autodep/env.cc:22-65).
The empty string yields an inactive env (autodep disabled); otherwise the
grammar is service:options:src_dirs:tmp_dir:tmp_view:root_dir where service
extends to the second ':' of the string (a service endpoint host:port), and
the final path must end the string (env[pos]!=0 goto Fail).  Any failure (the
source's goto Fail, and the SWEARs) yields none. -/
def AutodepEnv.parse (env : List Char) : Option AutodepEnv :=
  if env = [] then some { active := false }
  else
    (splitAtColon env).bind (fun p1 =>
    (splitAtColon p1.2).bind (fun p2 =>
    (parseOptions { service := p1.1 ++ ':' :: p2.1 } p2.2).bind (fun q =>
    (parseSrcDirs true [] q.2 (q.2.length + 1)).bind (fun dr =>
    (parseQuoted dr.2).bind (fun t1 =>
    (expectColon t1.2).bind (fun r5 =>
    (parseQuoted r5).bind (fun t2 =>
    (expectColon t2.2).bind (fun r6 =>
    (parseQuoted r6).bind (fun t3 =>
      if t3.2 = [] then
        some { q.1 with src_dirs_s := dr.1, tmp_dir := t1.1,
                        tmp_view := t2.1, root_dir := t3.1 }
      else none)))))))))

/-- The lnk_support option char (src/autodep/env.cc:77-81). -/
def lnkChar : LnkSupport → Char
| LnkSupport.none => 'n'
| LnkSupport.file => 'f'
| LnkSupport.full => 'a'

/-- The options part of AutodepEnv::operator ::string (src/autodep/env.cc:72-81). -/
def optionsStr (e : AutodepEnv) : List Char :=
  (if e.disabled then [ 'd' ] else []) ++
  (if e.ignore_stat then [ 'i' ] else []) ++
  (if e.auto_mkdir then [ 'm' ] else []) ++
  (if e.reliable_dirs then [ 'r' ] else []) ++
  [lnkChar e.lnk_support]

/-- The source-dirs part of AutodepEnv::operator ::string (src/autodep/env.cc:83-92):
each dir double-quoted and printable-escaped, comma separated. -/
def srcDirsTail : List (List Char) → List Char
| [] => []
| d :: rest => ',' :: '"' :: (mk_printable d ++ '"' :: srcDirsTail rest)

def srcDirsStr : List (List Char) → List Char
| [] => []
| d :: rest => '"' :: (mk_printable d ++ '"' :: srcDirsTail rest)

/-- AutodepEnv::operator ::string (src/autodep/env.cc:67-97). -/
def AutodepEnv.str (e : AutodepEnv) : List Char :=
  e.service ++ ':' :: (optionsStr e ++ ':' :: (srcDirsStr e.src_dirs_s ++
    ':' :: '"' :: (mk_printable e.tmp_dir ++ '"' :: ':' :: '"' ::
    (mk_printable e.tmp_view ++ '"' :: ':' :: '"' :: (mk_printable e.root_dir ++ [ '"' ])))))

end Lmake

namespace Lmake

theorem parse_printable_cons2 (c d : Char) (l : List Char) :
    parse_printable (c :: d :: l) =
      (if c = '"' then some ([], d :: l)
       else if c = '\\' then (parse_printable l).map (fun p => (d :: p.1, p.2))
       else (parse_printable (d :: l)).map (fun p => (c :: p.1, p.2))) := by
  rw [parse_printable]

theorem parse_printable_mk (s r : List Char) :
    parse_printable (mk_printable s ++ '"' :: r) = some (s, r) := by
  induction s with
  | nil =>
      have hmk : mk_printable [] = [] := rfl
      rw [hmk, List.nil_append]
      cases r with
      | nil => rfl
      | cons d rest =>
          rw [parse_printable_cons2, if_pos rfl]
  | cons c s ih =>
      by_cases hc : c = '"' ∨ c = '\\'
      · have hmk : mk_printable (c :: s) = '\\' :: c :: mk_printable s := by
          simp [mk_printable, hc]
        rw [hmk]
        have hsh : '\\' :: c :: mk_printable s ++ '"' :: r =
            '\\' :: c :: (mk_printable s ++ '"' :: r) := by simp
        rw [hsh, parse_printable_cons2]
        have h1 : ¬('\\' : Char) = '"' := by decide
        rw [if_neg h1, if_pos rfl, ih]
        rfl
      · have hmk : mk_printable (c :: s) = c :: mk_printable s := by
          simp [mk_printable, hc]
        rw [hmk]
        have hsh : c :: mk_printable s ++ '"' :: r = c :: (mk_printable s ++ '"' :: r) := by
          simp
        rw [hsh]
        push_neg at hc
        rcases hx : mk_printable s ++ '"' :: r with - | ⟨x, xs⟩
        · exact absurd hx (by simp)
        · rw [parse_printable_cons2]
          rw [if_neg hc.1, if_neg hc.2, ← hx, ih]
          rfl

end Lmake

namespace Lmake

theorem splitAtColon_append (a r : List Char) (h : ':' ∉ a) :
    splitAtColon (a ++ ':' :: r) = some (a, r) := by
  induction a with
  | nil =>
      rw [List.nil_append, splitAtColon, if_pos rfl]
  | cons c a ih =>
      have hc : ¬c = ':' := fun hh => h (hh ▸ List.mem_cons_self _ _)
      have h' : ':' ∉ a := fun hh => h (List.mem_cons_of_mem _ hh)
      rw [List.cons_append, splitAtColon, if_neg hc, ih h']
      rfl

theorem parseOptions_str (acc e : AutodepEnv) (r : List Char)
    (hd : acc.disabled = false) (hi : acc.ignore_stat = false)
    (hm : acc.auto_mkdir = false) (hr : acc.reliable_dirs = false) :
    parseOptions acc (optionsStr e ++ ':' :: r) =
      some ({ acc with disabled := e.disabled, ignore_stat := e.ignore_stat,
                       auto_mkdir := e.auto_mkdir, reliable_dirs := e.reliable_dirs,
                       lnk_support := e.lnk_support }, r) := by
  obtain ⟨xa, xs, xd, xi, xm, xr, xl, xsd, xtd, xtv, xrd⟩ := acc
  simp only at hd hi hm hr
  subst hd hi hm hr
  cases he1 : e.disabled <;> cases he2 : e.ignore_stat <;> cases he3 : e.auto_mkdir <;>
    cases he4 : e.reliable_dirs <;> cases he5 : e.lnk_support <;>
      simp [optionsStr, lnkChar, parseOptions, he1, he2, he3, he4, he5]

theorem parseQuoted_mk (s r : List Char) :
    parseQuoted ('"' :: (mk_printable s ++ '"' :: r)) = some (s, r) := by
  rw [parseQuoted, if_pos rfl, parse_printable_mk]

theorem parseDirEntry_mk (s r : List Char) (h : s.getLast? = some '/') :
    parseDirEntry ('"' :: (mk_printable s ++ '"' :: r)) = some (s, r) := by
  rw [parseDirEntry, parseQuoted_mk]
  simp [h]

theorem parseSrcDirs_tail (ds : List (List Char)) :
    ∀ (fuel : Nat) (acc : List (List Char)) (r : List Char),
    ds.length < fuel → (∀ d ∈ ds, d.getLast? = some '/') →
    parseSrcDirs false acc (srcDirsTail ds ++ ':' :: r) fuel = some (acc.reverse ++ ds, r) := by
  induction ds with
  | nil =>
      intro fuel acc r hfuel _
      cases fuel with
      | zero => cases hfuel
      | succ fuel' =>
          have h0 : srcDirsTail [] = [] := rfl
          rw [h0, List.nil_append, parseSrcDirs, if_pos rfl]
          simp
  | cons d ds ih =>
      intro fuel acc r hfuel hlast
      cases fuel with
      | zero => cases hfuel
      | succ fuel' =>
          have hdl : d.getLast? = some '/' := hlast d (List.mem_cons_self _ _)
          have hdsl : ∀ x ∈ ds, x.getLast? = some '/' :=
            fun x hx => hlast x (List.mem_cons_of_mem _ hx)
          rw [srcDirsTail]
          have hsh : ',' :: '"' :: (mk_printable d ++ '"' :: srcDirsTail ds) ++ ':' :: r =
              ',' :: '"' :: (mk_printable d ++ '"' :: (srcDirsTail ds ++ ':' :: r)) := by
            simp
          rw [hsh, parseSrcDirs]
          have h1 : ¬(',' : Char) = ':' := by decide
          rw [if_neg h1, if_neg Bool.false_ne_true, if_pos rfl]
          rw [parseDirEntry_mk d (srcDirsTail ds ++ ':' :: r) hdl]
          rw [Option.some_bind]
          rw [ih fuel' (d :: acc) r (Nat.lt_of_succ_lt_succ hfuel) hdsl]
          simp

theorem parseSrcDirs_str (ds : List (List Char)) (fuel : Nat) (r : List Char)
    (hfuel : ds.length < fuel) (hlast : ∀ d ∈ ds, d.getLast? = some '/') :
    parseSrcDirs true [] (srcDirsStr ds ++ ':' :: r) fuel = some (ds, r) := by
  cases ds with
  | nil =>
      cases fuel with
      | zero => cases hfuel
      | succ fuel' =>
          have h0 : srcDirsStr [] = [] := rfl
          rw [h0, List.nil_append, parseSrcDirs, if_pos rfl]
          simp
  | cons d ds =>
      cases fuel with
      | zero => cases hfuel
      | succ fuel' =>
          have hdl : d.getLast? = some '/' := hlast d (List.mem_cons_self _ _)
          have hdsl : ∀ x ∈ ds, x.getLast? = some '/' :=
            fun x hx => hlast x (List.mem_cons_of_mem _ hx)
          rw [srcDirsStr]
          have hsh : '"' :: (mk_printable d ++ '"' :: srcDirsTail ds) ++ ':' :: r =
              '"' :: (mk_printable d ++ '"' :: (srcDirsTail ds ++ ':' :: r)) := by
            simp
          rw [hsh, parseSrcDirs]
          have h1 : ¬('"' : Char) = ':' := by decide
          rw [if_neg h1, if_pos rfl]
          rw [parseDirEntry_mk d (srcDirsTail ds ++ ':' :: r) hdl]
          rw [Option.some_bind]
          rw [parseSrcDirs_tail ds fuel' [d] r (Nat.lt_of_succ_lt_succ hfuel) hdsl]
          simp

theorem srcDirsTail_length (ds : List (List Char)) :
    ds.length ≤ (srcDirsTail ds).length := by
  induction ds with
  | nil => simp [srcDirsTail]
  | cons d ds ih =>
      rw [srcDirsTail]
      simp only [List.length_cons, List.length_append]
      omega

theorem srcDirsStr_length (ds : List (List Char)) :
    ds.length ≤ (srcDirsStr ds).length := by
  cases ds with
  | nil => simp [srcDirsStr]
  | cons d ds =>
      rw [srcDirsStr]
      simp only [List.length_cons, List.length_append]
      have := srcDirsTail_length ds
      omega

end Lmake

namespace Lmake

/-- C9 counterexample : the claim asserts the round trip for every active env
whose source dirs end in '/', but the parser takes the service part to extend
to the second ':' of the string, so an env whose service contains no ':'
(e.g. a log file path) does not round trip: with service "s", empty source
dirs and tmp_dir "t", the string is s:n::"t":"v":"r" and parsing it fails
(the parser reads service "s:n" and then takes "t" for a source dir, which
does not end in '/'). -/
theorem autodep_env_round_trip_counterexample :
    ( AutodepEnv.parse (AutodepEnv.str
        { service := [ 's' ], tmp_dir := [ 't' ], tmp_view := [ 'v' ],
          root_dir := [ 'r' ], lnk_support := LnkSupport.none }) = none ) ∧
    ( let e : AutodepEnv :=
        { service := [ 's' ], tmp_dir := [ 't' ], tmp_view := [ 'v' ],
          root_dir := [ 'r' ], lnk_support := LnkSupport.none }
      e.active = true ∧ (∀ d ∈ e.src_dirs_s, d.getLast? = some '/') ∧
      AutodepEnv.parse (AutodepEnv.str e) ≠ some e ) := by
  refine ⟨by decide, rfl, by simp, by decide⟩

/-- C9 (amended) : for every active AutodepEnv whose service contains exactly
one ':' (as a host:port endpoint does) and whose source-dir entries each end
in '/', converting it to its string form and parsing that string back yields
the same env (same service, option flags, source dirs, tmp_dir, tmp_view and
root_dir); and constructing an AutodepEnv from the empty string yields an
inactive env. -/
theorem autodep_env_round_trip (e : AutodepEnv) (s1 s2 : List Char)
    (hact : e.active = true)
    (hsv : e.service = s1 ++ ':' :: s2) (h1 : ':' ∉ s1) (h2 : ':' ∉ s2)
    (hdirs : ∀ d ∈ e.src_dirs_s, d.getLast? = some '/') :
    AutodepEnv.parse (AutodepEnv.str e) = some e ∧
    ∃ e0, AutodepEnv.parse [] = some e0 ∧ e0.active = false := by
  refine ⟨?_, ⟨{ active := false }, rfl, rfl⟩⟩
  obtain ⟨ea, esv, ed, ei, em, erl, el, esd, etd, etv, erd⟩ := e
  simp only at hact hsv hdirs
  subst hact hsv
  have hstr : AutodepEnv.str ⟨true, s1 ++ ':' :: s2, ed, ei, em, erl, el, esd, etd, etv, erd⟩ =
      s1 ++ ':' :: (s2 ++ ':' ::
        (optionsStr ⟨true, s1 ++ ':' :: s2, ed, ei, em, erl, el, esd, etd, etv, erd⟩ ++ ':' ::
          (srcDirsStr esd ++ ':' :: ('"' :: (mk_printable etd ++ '"' :: ':' :: '"' ::
            (mk_printable etv ++ '"' :: ':' :: '"' :: (mk_printable erd ++ [ '"' ]))))))) := by
    rw [AutodepEnv.str]
    simp
  rw [hstr]
  rw [AutodepEnv.parse]
  rw [if_neg (by simp)]
  rw [splitAtColon_append s1 _ h1]
  simp only [Option.some_bind]
  rw [splitAtColon_append s2 _ h2]
  simp only [Option.some_bind]
  rw [parseOptions_str _ ⟨true, s1 ++ ':' :: s2, ed, ei, em, erl, el, esd, etd, etv, erd⟩ _
    rfl rfl rfl rfl]
  simp only [Option.some_bind]
  have hlen : esd.length <
      (srcDirsStr esd ++ ':' :: ('"' :: (mk_printable etd ++ '"' :: ':' :: '"' ::
        (mk_printable etv ++ '"' :: ':' :: '"' :: (mk_printable erd ++ [ '"' ]))))).length + 1 := by
    have hb := srcDirsStr_length esd
    simp only [List.length_append, List.length_cons]
    omega
  rw [parseSrcDirs_str esd _ _ hlen hdirs]
  simp [Option.some_bind, expectColon, parseQuoted_mk]

/-- Witness for autodep_env_round_trip at a concrete env: service h:p, one
option set, one source dir a/, link support File. -/
theorem autodep_env_round_trip_witness :
    AutodepEnv.parse (AutodepEnv.str
      { service := [ 'h', ':', 'p' ], disabled := true,
        src_dirs_s := [[ 'a', '/' ]], tmp_dir := [ 't' ], tmp_view := [],
        root_dir := [ '/', 'r' ], lnk_support := LnkSupport.file }) =
    some { service := [ 'h', ':', 'p' ], disabled := true,
           src_dirs_s := [[ 'a', '/' ]], tmp_dir := [ 't' ], tmp_view := [],
           root_dir := [ '/', 'r' ], lnk_support := LnkSupport.file } :=
  (autodep_env_round_trip
    { service := [ 'h', ':', 'p' ], disabled := true,
      src_dirs_s := [[ 'a', '/' ]], tmp_dir := [ 't' ], tmp_view := [],
      root_dir := [ '/', 'r' ], lnk_support := LnkSupport.file }
    [ 'h' ] [ 'p' ] rfl rfl (by decide) (by decide) (by decide)).1

end Lmake

namespace Lmake

/-! ## C2 / C5 : DirCache::match (src/lmakeserver/caches/dir_cache.cc lines 183-238)

A cache entry is its id together with its recorded deps (name, digest), in
recorded order; the job's candidate entries are the directory listing, in
listing order (an absent or empty directory is the empty list).  The engine
state is abstracted by two predicates: done dn (the node is done for the
request at NodeGoal::Status) and utd dn dd (the node is up_to_date against the
recorded digest dd). -/

/-- The dep loop of DirCache::match for one entry: walks the recorded deps
keeping the critical flag and the set nds of still-to-build deps; breaks past
the remaining parallel deps once a critical dep is missing; returns none on an
up_to_date failure (goto Miss) and the final nds otherwise. -/
def scan_entry (done : String → Bool) (utd : String → DepDigest → Bool) :
    List (String × DepDigest) → Bool → Finset String → Option (Finset String)
| [], _, nds => some nds
| (dn, dd) :: rest, critical, nds =>
  if critical ∧ dd.parallel = false then some nds
  else if done dn = false then
    scan_entry done utd rest (critical || dd.critical) (insert dn nds)
  else if utd dn dd = false then none
  else scan_entry done utd rest critical nds

inductive MatchRes where
| hit     : String → MatchRes
| miss    : MatchRes
| newDeps : Finset String → MatchRes
deriving DecidableEq

/-- The entry loop of DirCache::match: first passing entry is a hit; otherwise
the sets of still-to-build deps of the contributing entries are intersected;
at the end, no contributing entry is a miss, and otherwise the SWEAR(+new_deps)
assertion demands a non-empty intersection (none models the assertion firing). -/
def dc_match_loop (done : String → Bool) (utd : String → DepDigest → Bool) :
    List (String × List (String × DepDigest)) → Bool → Finset String → Option MatchRes
| [], found, nd =>
  if found then (if nd.Nonempty then some (MatchRes.newDeps nd) else none)
  else some MatchRes.miss
| (r, deps) :: rest, found, nd =>
  match scan_entry done utd deps false ∅ with
  | none => dc_match_loop done utd rest found nd
  | some nds =>
    if nds = ∅ then some (MatchRes.hit r)
    else if found = false then dc_match_loop done utd rest true nds
    else dc_match_loop done utd rest found (nd ∩ nds)

/-- DirCache::match, abstracted over the engine state. -/
def dc_match (done : String → Bool) (utd : String → DepDigest → Bool)
    (entries : List (String × List (String × DepDigest))) : Option MatchRes :=
  dc_match_loop done utd entries false ∅

/-- An entry passes the check when each of its recorded deps is done for the
request and up_to_date against the recorded digest. -/
def entry_passes (done : String → Bool) (utd : String → DepDigest → Bool)
    (deps : List (String × DepDigest)) : Prop :=
  ∀ p ∈ deps, done p.1 = true ∧ utd p.1 p.2 = true

instance (done : String → Bool) (utd : String → DepDigest → Bool)
    (deps : List (String × DepDigest)) : Decidable (entry_passes done utd deps) := by
  unfold entry_passes
  infer_instance

theorem dc_match_loop_cons_none (done : String → Bool) (utd : String → DepDigest → Bool)
    (r : String) (deps : List (String × DepDigest))
    (rest : List (String × List (String × DepDigest))) (found : Bool) (nd : Finset String)
    (h : scan_entry done utd deps false ∅ = none) :
    dc_match_loop done utd ((r, deps) :: rest) found nd =
      dc_match_loop done utd rest found nd := by
  rw [dc_match_loop, h]

theorem dc_match_loop_cons_some (done : String → Bool) (utd : String → DepDigest → Bool)
    (r : String) (deps : List (String × DepDigest))
    (rest : List (String × List (String × DepDigest))) (found : Bool) (nd : Finset String)
    (nds : Finset String) (h : scan_entry done utd deps false ∅ = some nds) :
    dc_match_loop done utd ((r, deps) :: rest) found nd =
      (if nds = ∅ then some (MatchRes.hit r)
       else if found = false then dc_match_loop done utd rest true nds
       else dc_match_loop done utd rest found (nd ∩ nds)) := by
  rw [dc_match_loop, h]

theorem scan_entry_subset (done : String → Bool) (utd : String → DepDigest → Bool) :
    ∀ (deps : List (String × DepDigest)) (critical : Bool) (nds res : Finset String),
    scan_entry done utd deps critical nds = some res → nds ⊆ res := by
  intro deps
  induction deps with
  | nil =>
      intro critical nds res h
      rw [scan_entry] at h
      cases h
      exact Finset.Subset.refl _
  | cons p rest ih =>
      intro critical nds res h
      obtain ⟨dn, dd⟩ := p
      rw [scan_entry] at h
      by_cases hc : critical ∧ dd.parallel = false
      · rw [if_pos hc] at h
        cases h
        exact Finset.Subset.refl _
      · rw [if_neg hc] at h
        by_cases hd : done dn = false
        · rw [if_pos hd] at h
          exact Finset.Subset.trans (Finset.subset_insert _ _) (ih _ _ _ h)
        · rw [if_neg hd] at h
          by_cases hu : utd dn dd = false
          · rw [if_pos hu] at h
            cases h
          · rw [if_neg hu] at h
            exact ih _ _ _ h

theorem scan_entry_empty_iff (done : String → Bool) (utd : String → DepDigest → Bool) :
    ∀ (deps : List (String × DepDigest)),
    scan_entry done utd deps false ∅ = some ∅ ↔ entry_passes done utd deps := by
  intro deps
  induction deps with
  | nil =>
      constructor
      · intro _ p hp
        cases hp
      · intro _
        rfl
  | cons p rest ih =>
      obtain ⟨dn, dd⟩ := p
      constructor
      · intro h
        rw [scan_entry] at h
        rw [if_neg (by simp)] at h
        by_cases hd : done dn = false
        · rw [if_pos hd] at h
          have hsub := scan_entry_subset done utd rest _ _ _ h
          have : dn ∈ (∅ : Finset String) := hsub (Finset.mem_insert_self dn ∅)
          cases this
        · rw [if_neg hd] at h
          by_cases hu : utd dn dd = false
          · rw [if_pos hu] at h
            cases h
          · rw [if_neg hu] at h
            intro q hq
            rcases List.mem_cons.mp hq with hh | hh
            · subst hh
              exact ⟨Bool.not_eq_false _ |>.mp hd, Bool.not_eq_false _ |>.mp hu⟩
            · exact ih.mp h q hh
      · intro hpass
        have hd : done dn = true := (hpass (dn, dd) (List.mem_cons_self _ _)).1
        have hu : utd dn dd = true := (hpass (dn, dd) (List.mem_cons_self _ _)).2
        have hd' : ¬done dn = false := by simp [hd]
        have hu' : ¬utd dn dd = false := by simp [hu]
        rw [scan_entry]
        rw [if_neg (by simp)]
        rw [if_neg hd', if_neg hu']
        exact ih.mpr (fun q hq => hpass q (List.mem_cons_of_mem _ hq))

theorem dc_match_loop_no_hit (done : String → Bool) (utd : String → DepDigest → Bool) :
    ∀ (entries : List (String × List (String × DepDigest))) (found : Bool) (nd : Finset String),
    (∀ e ∈ entries, ¬entry_passes done utd e.2) →
    ∀ r, dc_match_loop done utd entries found nd ≠ some (MatchRes.hit r) := by
  intro entries
  induction entries with
  | nil =>
      intro found nd _ r h
      rw [dc_match_loop] at h
      by_cases hf : found = true
      · rw [if_pos hf] at h
        by_cases hne : nd.Nonempty
        · rw [if_pos hne] at h
          cases h
        · rw [if_neg hne] at h
          cases h
      · rw [if_neg hf] at h
        cases h
  | cons e rest ih =>
      intro found nd hno r h
      obtain ⟨rid, deps⟩ := e
      rcases hs : scan_entry done utd deps false ∅ with - | nds
      · rw [dc_match_loop_cons_none done utd rid deps rest found nd hs] at h
        exact ih found nd (fun q hq => hno q (List.mem_cons_of_mem _ hq)) r h
      · rw [dc_match_loop_cons_some done utd rid deps rest found nd nds hs] at h
        by_cases hnds : nds = ∅
        · subst hnds
          exact hno (rid, deps) (List.mem_cons_self _ _)
            ((scan_entry_empty_iff done utd deps).mp hs)
        · rw [if_neg hnds] at h
          by_cases hf : found = false
          · rw [if_pos hf] at h
            exact ih true nds (fun q hq => hno q (List.mem_cons_of_mem _ hq)) r h
          · rw [if_neg hf] at h
            exact ih found (nd ∩ nds) (fun q hq => hno q (List.mem_cons_of_mem _ hq)) r h

theorem dc_match_loop_hit_of_pass (done : String → Bool) (utd : String → DepDigest → Bool) :
    ∀ (entries : List (String × List (String × DepDigest))) (found : Bool) (nd : Finset String),
    (∃ e ∈ entries, entry_passes done utd e.2) →
    ∃ r deps', dc_match_loop done utd entries found nd = some (MatchRes.hit r) ∧
      (r, deps') ∈ entries ∧ entry_passes done utd deps' := by
  intro entries
  induction entries with
  | nil =>
      intro found nd hex
      obtain ⟨e, he, -⟩ := hex
      cases he
  | cons e rest ih =>
      intro found nd hex
      obtain ⟨rid, deps⟩ := e
      by_cases hpass : entry_passes done utd deps
      · have hs : scan_entry done utd deps false ∅ = some ∅ :=
          (scan_entry_empty_iff done utd deps).mpr hpass
        refine ⟨rid, deps, ?_, List.mem_cons_self _ _, hpass⟩
        rw [dc_match_loop_cons_some done utd rid deps rest found nd ∅ hs]
        rw [if_pos rfl]
      · have hex' : ∃ e ∈ rest, entry_passes done utd e.2 := by
          obtain ⟨q, hq, hqp⟩ := hex
          rcases List.mem_cons.mp hq with hh | hh
          · subst hh
            exact absurd hqp hpass
          · exact ⟨q, hh, hqp⟩
        rcases hs : scan_entry done utd deps false ∅ with - | nds
        · rw [dc_match_loop_cons_none done utd rid deps rest found nd hs]
          obtain ⟨r, deps', hres, hmem, hp⟩ := ih found nd hex'
          exact ⟨r, deps', hres, List.mem_cons_of_mem _ hmem, hp⟩
        · rw [dc_match_loop_cons_some done utd rid deps rest found nd nds hs]
          have hnds : ¬nds = ∅ := by
            intro hh
            subst hh
            exact hpass ((scan_entry_empty_iff done utd deps).mp hs)
          rw [if_neg hnds]
          by_cases hf : found = false
          · rw [if_pos hf]
            obtain ⟨r, deps', hres, hmem, hp⟩ := ih true nds hex'
            exact ⟨r, deps', hres, List.mem_cons_of_mem _ hmem, hp⟩
          · rw [if_neg hf]
            obtain ⟨r, deps', hres, hmem, hp⟩ := ih found (nd ∩ nds) hex'
            exact ⟨r, deps', hres, List.mem_cons_of_mem _ hmem, hp⟩

theorem dc_match_loop_hit_passes (done : String → Bool) (utd : String → DepDigest → Bool) :
    ∀ (entries : List (String × List (String × DepDigest))) (found : Bool) (nd : Finset String)
      (r : String),
    dc_match_loop done utd entries found nd = some (MatchRes.hit r) →
    ∃ deps', (r, deps') ∈ entries ∧ entry_passes done utd deps' := by
  intro entries
  induction entries with
  | nil =>
      intro found nd r h
      rw [dc_match_loop] at h
      by_cases hf : found = true
      · rw [if_pos hf] at h
        by_cases hne : nd.Nonempty
        · rw [if_pos hne] at h
          cases h
        · rw [if_neg hne] at h
          cases h
      · rw [if_neg hf] at h
        cases h
  | cons e rest ih =>
      intro found nd r h
      obtain ⟨rid, deps⟩ := e
      rcases hs : scan_entry done utd deps false ∅ with - | nds
      · rw [dc_match_loop_cons_none done utd rid deps rest found nd hs] at h
        obtain ⟨deps', hmem, hp⟩ := ih found nd r h
        exact ⟨deps', List.mem_cons_of_mem _ hmem, hp⟩
      · rw [dc_match_loop_cons_some done utd rid deps rest found nd nds hs] at h
        by_cases hnds : nds = ∅
        · subst hnds
          rw [if_pos rfl] at h
          cases h
          exact ⟨deps, List.mem_cons_self _ _, (scan_entry_empty_iff done utd deps).mp hs⟩
        · rw [if_neg hnds] at h
          by_cases hf : found = false
          · rw [if_pos hf] at h
            obtain ⟨deps', hmem, hp⟩ := ih true nds r h
            exact ⟨deps', List.mem_cons_of_mem _ hmem, hp⟩
          · rw [if_neg hf] at h
            obtain ⟨deps', hmem, hp⟩ := ih found (nd ∩ nds) r h
            exact ⟨deps', List.mem_cons_of_mem _ hmem, hp⟩

/-- C2 : DirCache::match returns hit=Yes with id r exactly when some cached
entry passes the check — each recorded dep done for the request and up_to_date
against the recorded digest (with the critical/parallel cut never firing on a
passing entry, as the critical flag is only raised by a missing dep); the id
returned is itself a passing entry; and an absent or empty job cache directory
yields hit=No. -/
theorem dircache_match_hit_iff (done : String → Bool) (utd : String → DepDigest → Bool)
    (entries : List (String × List (String × DepDigest))) :
    ( ∀ r, dc_match done utd entries = some (MatchRes.hit r) →
        ∃ deps, (r, deps) ∈ entries ∧ entry_passes done utd deps ) ∧
    ( (∃ e ∈ entries, entry_passes done utd e.2) →
        ∃ r, dc_match done utd entries = some (MatchRes.hit r) ) ∧
    ( dc_match done utd [] = some MatchRes.miss ) := by
  refine ⟨?_, ?_, rfl⟩
  · intro r h
    exact dc_match_loop_hit_passes done utd entries false ∅ r h
  · intro hex
    obtain ⟨r, deps', hres, -, -⟩ := dc_match_loop_hit_of_pass done utd entries false ∅ hex
    exact ⟨r, hres⟩

/-- Witness for dircache_match_hit_iff at a concrete input: a single entry
whose single dep is done and up to date is a hit. -/
theorem dircache_match_hit_iff_witness :
    ∃ r, dc_match (fun _ => true) (fun _ _ => true)
      [("e1", [("a", ⟨Accesses.all, DepPayload.crc Crc.empty, false, false⟩)])] =
      some (MatchRes.hit r) :=
  (dircache_match_hit_iff (fun _ => true) (fun _ _ => true)
    [("e1", [("a", ⟨Accesses.all, DepPayload.crc Crc.empty, false, false⟩)])]).2.1
    ⟨("e1", [("a", ⟨Accesses.all, DepPayload.crc Crc.empty, false, false⟩)]),
      List.mem_cons_self _ _, fun p hp => by
        cases List.mem_singleton.mp hp
        exact ⟨rfl, rfl⟩⟩

end Lmake

namespace Lmake

theorem dc_match_loop_common (done : String → Bool) (utd : String → DepDigest → Bool)
    (d : String) :
    ∀ (entries : List (String × List (String × DepDigest))) (found : Bool) (nd : Finset String),
    (∀ e ∈ entries, ¬entry_passes done utd e.2) →
    (∀ e ∈ entries, ∀ nds, scan_entry done utd e.2 false ∅ = some nds → nds ≠ ∅ → d ∈ nds) →
    ( (found = true ∧ d ∈ nd) ∨
      (found = false ∧
        ∃ e ∈ entries, ∃ nds, scan_entry done utd e.2 false ∅ = some nds ∧ nds ≠ ∅) ) →
    ∃ nd', dc_match_loop done utd entries found nd = some (MatchRes.newDeps nd') ∧ d ∈ nd' := by
  intro entries
  induction entries with
  | nil =>
      intro found nd _ _ hcase
      rcases hcase with ⟨hf, hd⟩ | ⟨-, e, he, -⟩
      · subst hf
        rw [dc_match_loop, if_pos rfl, if_pos ⟨d, hd⟩]
        exact ⟨nd, rfl, hd⟩
      · cases he
  | cons e rest ih =>
      intro found nd hno hcomm hcase
      obtain ⟨rid, deps⟩ := e
      rcases hs : scan_entry done utd deps false ∅ with - | nds
      · rw [dc_match_loop_cons_none done utd rid deps rest found nd hs]
        refine ih found nd (fun q hq => hno q (List.mem_cons_of_mem _ hq))
          (fun q hq => hcomm q (List.mem_cons_of_mem _ hq)) ?_
        rcases hcase with ⟨hf, hd⟩ | ⟨hf, q, hq, nds', hq1, hq2⟩
        · exact Or.inl ⟨hf, hd⟩
        · rcases List.mem_cons.mp hq with hh | hh
          · subst hh
            rw [hs] at hq1
            cases hq1
          · exact Or.inr ⟨hf, q, hh, nds', hq1, hq2⟩
      · have hnds : ¬nds = ∅ := by
          intro hh
          subst hh
          exact hno (rid, deps) (List.mem_cons_self _ _)
            ((scan_entry_empty_iff done utd deps).mp hs)
        have hdn : d ∈ nds := hcomm (rid, deps) (List.mem_cons_self _ _) nds hs hnds
        rw [dc_match_loop_cons_some done utd rid deps rest found nd nds hs, if_neg hnds]
        rcases hcase with ⟨hf, hd⟩ | ⟨hf, -⟩
        · subst hf
          rw [if_neg (by decide)]
          exact ih true (nd ∩ nds) (fun q hq => hno q (List.mem_cons_of_mem _ hq))
            (fun q hq => hcomm q (List.mem_cons_of_mem _ hq))
            (Or.inl ⟨rfl, Finset.mem_inter.mpr ⟨hd, hdn⟩⟩)
        · rw [if_pos hf]
          exact ih true nds (fun q hq => hno q (List.mem_cons_of_mem _ hq))
            (fun q hq => hcomm q (List.mem_cons_of_mem _ hq)) (Or.inl ⟨rfl, hdn⟩)

/-- C5 counterexample : the claim asserts that whenever match examines at least
one candidate entry and none hits, the intersection of still-to-build dep sets
is non-empty and match returns hit=Maybe with non-empty new_deps.  With two
candidate entries recording disjoint single not-yet-done deps a and b, no entry
hits, both contribute, and the intersection is empty: the SWEAR(+new_deps)
assertion fires (modelled as none) instead of a Maybe result. -/
theorem dircache_match_intersection_counterexample :
    dc_match (fun _ => false) (fun _ _ => true)
      [("e1", [("a", ⟨Accesses.all, DepPayload.crc Crc.empty, false, false⟩)]),
       ("e2", [("b", ⟨Accesses.all, DepPayload.crc Crc.empty, false, false⟩)])] = none ∧
    [("e1", [("a", (⟨Accesses.all, DepPayload.crc Crc.empty, false, false⟩ : DepDigest))]),
     ("e2", [("b", ⟨Accesses.all, DepPayload.crc Crc.empty, false, false⟩)])] ≠ [] := by
  constructor
  · decide
  · simp

/-- C5 (amended) : whenever no candidate entry hits, at least one candidate
contributes a non-empty set of still-to-build deps, and all contributing
candidates share a common still-to-build dep (the first divergence dep, which
is deterministic given the dep prefix when entries come from actual runs), the
intersection across candidates is non-empty: match returns hit=Maybe with a
non-empty new_deps vector and the SWEAR(+new_deps) assertion is unreachable. -/
theorem dircache_match_intersection (done : String → Bool) (utd : String → DepDigest → Bool)
    (entries : List (String × List (String × DepDigest))) (d : String)
    (hnohit : ∀ e ∈ entries, ¬entry_passes done utd e.2)
    (hfound : ∃ e ∈ entries, ∃ nds, scan_entry done utd e.2 false ∅ = some nds ∧ nds ≠ ∅)
    (hcommon : ∀ e ∈ entries, ∀ nds,
      scan_entry done utd e.2 false ∅ = some nds → nds ≠ ∅ → d ∈ nds) :
    ∃ nd, dc_match done utd entries = some (MatchRes.newDeps nd) ∧ nd.Nonempty := by
  obtain ⟨nd', hres, hd⟩ := dc_match_loop_common done utd d entries false ∅ hnohit hcommon
    (Or.inr ⟨rfl, hfound⟩)
  exact ⟨nd', hres, ⟨d, hd⟩⟩

/-- Witness for dircache_match_intersection at a concrete input: two entries
both missing the same dep a. -/
theorem dircache_match_intersection_witness :
    ∃ nd, dc_match (fun _ => false) (fun _ _ => true)
      [("e1", [("a", ⟨Accesses.all, DepPayload.crc Crc.empty, false, false⟩)]),
       ("e2", [("a", ⟨Accesses.all, DepPayload.crc Crc.empty, true, false⟩)])] =
        some (MatchRes.newDeps nd) ∧ nd.Nonempty :=
  dircache_match_intersection (fun _ => false) (fun _ _ => true)
    [("e1", [("a", ⟨Accesses.all, DepPayload.crc Crc.empty, false, false⟩)]),
     ("e2", [("a", ⟨Accesses.all, DepPayload.crc Crc.empty, true, false⟩)])] "a"
    (by decide)
    ⟨("e1", [("a", ⟨Accesses.all, DepPayload.crc Crc.empty, false, false⟩)]),
      List.mem_cons_self _ _, {"a"}, by decide⟩
    (by decide)

end Lmake

namespace Lmake

/-! ## C7 / C6 : the DirCache LRU store (src/lmakeserver/caches/dir_cache.cc)

The cache's on-disk lru files are modelled as a map from entry name to Lru
record (String → Option Lru); the head lives under the reserved name HeadS.
Reading a missing file yields the default record (the source defaults the head
when absent and checks existence where it matters); unlnk removes a file.
The eviction loop of _mk_room is modelled with fuel (one unit per eviction);
all theorems hold for every sufficient fuel, and one eviction removes one
existing entry, so the number of entries bounds the iterations. -/

/-- struct Lru (src/lmakeserver/caches/dir_cache.cc:32-36): prev/next entry
names and the entry size (overall size for the head), prev_s and next_s
defaulting to the head name and sz to 0. -/
structure Lru where
  prev_s : String
  next_s : String
  sz     : Nat
deriving DecidableEq, Repr

def HeadS : String := "LMAKE/"

def dfltLru : Lru := ⟨HeadS, HeadS, 0⟩

def St := String → Option Lru

def readLru (st : St) (n : String) : Lru := (st n).getD dfltLru

def writeLru (st : St) (n : String) (l : Lru) : St := fun k => if k = n then some l else st k

def unlnkLru (st : St) (n : String) : St := fun k => if k = n then none else st k

/-- DirCache::_lru_remove (src/lmakeserver/caches/dir_cache.cc:134-160): unlink
the entry from the doubly-linked list (its own lru file is left in place) and
return its size; a missing lru file means nothing to remove. -/
def lru_remove (st : St) (entry : String) : St × Nat :=
  match st entry with
  | none => (st, 0)
  | some here =>
    if here.prev_s = here.next_s then
      let pn := readLru st here.prev_s
      (writeLru st here.prev_s { pn with next_s := here.next_s, prev_s := here.prev_s },
       here.sz)
    else
      let prev := readLru st here.prev_s
      let next := readLru st here.next_s
      (writeLru (writeLru st here.prev_s { prev with next_s := here.next_s })
         here.next_s { next with prev_s := here.prev_s },
       here.sz)

/-- DirCache::_lru_first (src/lmakeserver/caches/dir_cache.cc:162-181): insert
the entry at the front of the list with the given size. -/
def lru_first (st : St) (entry : String) (sz_ : Nat) : St :=
  if (readLru st HeadS).next_s = HeadS then
    writeLru (writeLru st HeadS
        { readLru st HeadS with next_s := entry, prev_s := entry }) entry
      ⟨HeadS, (readLru st HeadS).next_s, sz_⟩
  else
    writeLru (writeLru (writeLru st (readLru st HeadS).next_s
          { readLru st (readLru st HeadS).next_s with prev_s := entry })
        HeadS { readLru st HeadS with next_s := entry }) entry
      ⟨HeadS, (readLru st HeadS).next_s, sz_⟩

/-- The eviction loop of DirCache::_mk_room (src/lmakeserver/caches/dir_cache.cc:107-117):
while the running head size plus the new entry size exceeds the capacity,
unlink the least recently used entry (head.prev_s) and account for it.  The
in-memory head fields are the headSz/headPrev arguments; expNext carries the
expected_next_s assertion.  All SWEAR failures and a read of a missing entry
file are modelled as none; fuel exhaustion also yields none. -/
def mk_room_loop (cap newSz : Nat) :
    St → Nat → String → String → Bool → Nat → Option (St × Nat × String × Bool)
| _, _, _, _, _, 0 => none
| st, headSz, headPrev, expNext, someRemoved, fuel + 1 =>
  if headSz + newSz > cap then
    if headPrev = HeadS then none
    else
      match st headPrev with
      | none => none
      | some here =>
        if here.next_s ≠ expNext then none
        else if headSz < here.sz then none
        else mk_room_loop cap newSz (unlnkLru st headPrev) (headSz - here.sz) here.prev_s
               headPrev true fuel
  else some (st, headSz, headPrev, someRemoved)

/-- DirCache::_mk_room (src/lmakeserver/caches/dir_cache.cc:96-132): make room
for an entry of size newSz replacing one of size oldSz: throw if newSz exceeds
the capacity, subtract oldSz from the head size, evict from the tail while
over capacity, add newSz, fix the new tail's next pointer, write the head. -/
def mk_room (st : St) (cap oldSz newSz : Nat) (fuel : Nat) : Option St :=
  if newSz > cap then none
  else if (readLru st HeadS).sz < oldSz then none
  else
    match mk_room_loop cap newSz st ((readLru st HeadS).sz - oldSz)
        (readLru st HeadS).prev_s HeadS false fuel with
    | none => none
    | some (st1, hsz, hprev, someRemoved) =>
      if hsz + newSz > cap then none
      else
        some (writeLru
          (if someRemoved ∧ hprev ≠ HeadS then
            writeLru st1 hprev { readLru st1 hprev with next_s := HeadS }
          else st1)
          HeadS
          ⟨hprev, if someRemoved ∧ hprev = HeadS then HeadS else (readLru st HeadS).next_s,
           hsz + newSz⟩)

/-! The abstract view: the chain as a list of (entry name, size) pairs in
most-recently-used-first order, plus an extra amount temporarily carried by
the head size (the delta of DirCache::chk). -/

def sumSz (mru : List (String × Nat)) : Nat := (mru.map Prod.snd).sum

def chainNextName : List (String × Nat) → String
| [] => HeadS
| e :: _ => e.1

def chainPrevName (mru : List (String × Nat)) : String :=
  match mru.getLast? with
  | none => HeadS
  | some e => e.1

/-- The lru record of entry k when the chain entries after prev are mru. -/
def entriesLookup : String → List (String × Nat) → String → Option Lru
| _, [], _ => none
| prev, e :: rest, k =>
    if k = e.1 then some ⟨prev, chainNextName rest, e.2⟩ else entriesLookup e.1 rest k

/-- The store state exactly representing the chain mru with the head size
carrying sumSz mru + extra. -/
def modelSt (mru : List (String × Nat)) (extra : Nat) : St :=
  fun k =>
    if k = HeadS then some ⟨chainPrevName mru, chainNextName mru, sumSz mru + extra⟩
    else entriesLookup HeadS mru k

/-- Well-formed chain: entry names are distinct and none is the head name. -/
def WFmru (mru : List (String × Nat)) : Prop :=
  (mru.map Prod.fst).Nodup ∧ HeadS ∉ mru.map Prod.fst

/-! The property DirCache::chk verifies (src/lmakeserver/caches/dir_cache.cc:38-55):
following next from the head visits every entry exactly once and returns to the
head, each visited entry's prev names its predecessor (head.prev being the
last), and head.sz is the sum of the entry sizes plus the delta. -/

def chkFrom (st : St) : String → String → List String → Prop
| prev, cur, [] => cur = HeadS ∧ (readLru st HeadS).prev_s = prev
| prev, cur, n :: rest =>
    cur = n ∧ n ≠ HeadS ∧
    ∃ r, st n = some r ∧ r.prev_s = prev ∧ chkFrom st n r.next_s rest

def sumChain (st : St) (es : List String) : Nat :=
  (es.map (fun n => (readLru st n).sz)).sum

def chkHolds (st : St) (delta : Nat) : Prop :=
  ∃ es : List String, es.Nodup ∧ chkFrom st HeadS (readLru st HeadS).next_s es ∧
    (readLru st HeadS).sz = sumChain st es + delta

end Lmake

namespace Lmake

def mruNames (mru : List (String × Nat)) : List String := mru.map Prod.fst

def lastName (p : String) (l : List (String × Nat)) : String :=
  match l.getLast? with
  | none => p
  | some x => x.1

theorem lastName_nil (p : String) : lastName p [] = p := rfl

theorem chainPrevName_eq_lastName (mru : List (String × Nat)) :
    chainPrevName mru = lastName HeadS mru := rfl

theorem getLast?_cons_ne_nil {α : Type} (x : α) (l : List α) (h : l ≠ []) :
    (x :: l).getLast? = l.getLast? := by
  cases l with
  | nil => exact absurd rfl h
  | cons y ys => exact List.getLast?_cons_cons

theorem lastName_append_cons (p : String) (l1 : List (String × Nat)) (e : String × Nat)
    (l2 : List (String × Nat)) :
    lastName p (l1 ++ e :: l2) = lastName e.1 l2 := by
  induction l1 with
  | nil =>
      rw [List.nil_append]
      unfold lastName
      cases l2 with
      | nil => rfl
      | cons y ys =>
          rw [List.getLast?_cons_cons]
          rcases hg : (y :: ys).getLast? with - | x
          · rw [List.getLast?_eq_none_iff] at hg
            cases hg
          · rfl
  | cons x l1 ih =>
      rw [List.cons_append]
      unfold lastName
      rw [getLast?_cons_ne_nil x _ (by simp)]
      exact ih

theorem writeLru_self (st : St) (n : String) (l : Lru) : writeLru st n l n = some l := by
  unfold writeLru
  rw [if_pos rfl]

theorem writeLru_other (st : St) (n k : String) (l : Lru) (h : k ≠ n) :
    writeLru st n l k = st k := by
  unfold writeLru
  rw [if_neg h]

theorem unlnkLru_self (st : St) (n : String) : unlnkLru st n n = none := by
  unfold unlnkLru
  rw [if_pos rfl]

theorem unlnkLru_other (st : St) (n k : String) (h : k ≠ n) : unlnkLru st n k = st k := by
  unfold unlnkLru
  rw [if_neg h]

theorem entriesLookup_not_mem (p : String) (l : List (String × Nat)) (k : String)
    (h : k ∉ mruNames l) : entriesLookup p l k = none := by
  induction l generalizing p with
  | nil => rfl
  | cons x rest ih =>
      rw [entriesLookup]
      have hne : ¬k = x.1 := by
        intro hh
        exact h (by rw [hh] ; exact List.mem_cons_self _ _)
      rw [if_neg hne]
      exact ih x.1 (fun hh => h (List.mem_cons_of_mem _ hh))

theorem modelSt_not_mem (mru : List (String × Nat)) (extra : Nat) (k : String)
    (hk : k ≠ HeadS) (h : k ∉ mruNames mru) : modelSt mru extra k = none := by
  unfold modelSt
  rw [if_neg hk]
  exact entriesLookup_not_mem HeadS mru k h

theorem modelSt_head (mru : List (String × Nat)) (extra : Nat) :
    modelSt mru extra HeadS = some ⟨chainPrevName mru, chainNextName mru, sumSz mru + extra⟩ := by
  unfold modelSt
  rw [if_pos rfl]

end Lmake

namespace Lmake

theorem lastName_cons (p : String) (x : String × Nat) (l : List (String × Nat)) :
    lastName p (x :: l) = lastName x.1 l := by
  unfold lastName
  cases l with
  | nil => rfl
  | cons y ys =>
      rw [List.getLast?_cons_cons]
      rcases hg : (y :: ys).getLast? with - | z
      · rw [List.getLast?_eq_none_iff] at hg
        cases hg
      · rfl

theorem chainNextName_append (l1 l2 : List (String × Nat)) (h : l1 ≠ []) :
    chainNextName (l1 ++ l2) = chainNextName l1 := by
  cases l1 with
  | nil => exact absurd rfl h
  | cons x xs => rfl

theorem entriesLookup_append_notmem (l1 : List (String × Nat)) :
    ∀ (p : String) (l2 : List (String × Nat)) (k : String), k ∉ mruNames l1 →
    entriesLookup p (l1 ++ l2) k = entriesLookup (lastName p l1) l2 k := by
  induction l1 with
  | nil =>
      intro p l2 k _
      rw [List.nil_append, lastName_nil]
  | cons x l1 ih =>
      intro p l2 k hk
      rw [List.cons_append, entriesLookup]
      have hne : ¬k = x.1 := by
        intro hh
        exact hk (by rw [hh] ; exact List.mem_cons_self _ _)
      rw [if_neg hne, lastName_cons]
      exact ih x.1 l2 k (fun hh => hk (List.mem_cons_of_mem _ hh))

theorem entriesLookup_append_mem (l1 : List (String × Nat)) :
    ∀ (p : String) (l2 l2' : List (String × Nat)) (k : String), k ∈ mruNames l1 →
    chainNextName l2 = chainNextName l2' →
    entriesLookup p (l1 ++ l2) k = entriesLookup p (l1 ++ l2') k := by
  induction l1 with
  | nil =>
      intro p l2 l2' k hk _
      cases hk
  | cons x l1 ih =>
      intro p l2 l2' k hk hnext
      rw [List.cons_append, List.cons_append, entriesLookup, entriesLookup]
      by_cases hx : k = x.1
      · rw [if_pos hx, if_pos hx]
        cases l1 with
        | nil =>
            rw [List.nil_append, List.nil_append, hnext]
        | cons y ys =>
            rw [chainNextName_append _ l2 (by simp), chainNextName_append _ l2' (by simp)]
      · rw [if_neg hx, if_neg hx]
        have hk' : k ∈ mruNames l1 := by
          rcases List.mem_cons.mp hk with hh | hh
          · exact absurd hh hx
          · exact hh
        exact ih x.1 l2 l2' k hk' hnext

theorem WFmru_decomp (l1 l2 : List (String × Nat)) (e : String) (s : Nat)
    (h : WFmru (l1 ++ (e, s) :: l2)) :
    e ∉ mruNames l1 ∧ e ∉ mruNames l2 ∧ (∀ k, k ∈ mruNames l1 → k ∉ mruNames l2) ∧
    e ≠ HeadS ∧ HeadS ∉ mruNames l1 ∧ HeadS ∉ mruNames l2 ∧ WFmru (l1 ++ l2) := by
  obtain ⟨hnd, hhead⟩ := h
  rw [List.map_append, List.map_cons] at hnd hhead
  rw [List.nodup_append] at hnd
  obtain ⟨hnd1, hnd2, hdisj⟩ := hnd
  rw [List.nodup_cons] at hnd2
  obtain ⟨he2, hnd2'⟩ := hnd2
  simp only [List.mem_append, List.mem_cons] at hhead
  push_neg at hhead
  obtain ⟨hh1, hh2, hh3⟩ := hhead
  refine ⟨?_, he2, ?_, ?_, hh1, hh3, ?_⟩
  · intro hel1
    exact hdisj hel1 (List.mem_cons_self _ _)
  · intro k hk1 hk2
    exact hdisj hk1 (List.mem_cons_of_mem _ hk2)
  · intro hh
    exact hh2 hh.symm
  · constructor
    · rw [List.map_append, List.nodup_append]
      refine ⟨hnd1, hnd2', ?_⟩
      intro a ha1 ha2
      exact hdisj ha1 (List.mem_cons_of_mem _ ha2)
    · rw [List.map_append]
      intro hh
      rcases List.mem_append.mp hh with h1 | h1
      · exact hh1 h1
      · exact hh3 h1

end Lmake

namespace Lmake

theorem lastName_irrel (p q : String) (l : List (String × Nat)) (h : l ≠ []) :
    lastName p l = lastName q l := by
  unfold lastName
  rcases hg : l.getLast? with - | x
  · rw [List.getLast?_eq_none_iff] at hg
    exact absurd hg h
  · rfl

theorem lastName_mem (p : String) (l : List (String × Nat)) (h : l ≠ []) :
    lastName p l ∈ mruNames l := by
  induction l generalizing p with
  | nil => exact absurd rfl h
  | cons x xs ih =>
      rw [lastName_cons]
      by_cases hxs : xs = []
      · subst hxs
        rw [lastName_nil]
        exact List.mem_cons_self _ _
      · exact List.mem_cons_of_mem _ (ih x.1 hxs)

theorem chainNextName_mem (l : List (String × Nat)) (h : l ≠ []) :
    chainNextName l ∈ mruNames l := by
  cases l with
  | nil => exact absurd rfl h
  | cons x xs => exact List.mem_cons_self _ _

theorem entriesLookup_prev_irrel (p p' : String) (l : List (String × Nat)) (k : String)
    (h : k ≠ chainNextName l) : entriesLookup p l k = entriesLookup p' l k := by
  cases l with
  | nil => rfl
  | cons f l' =>
      have h' : ¬k = f.1 := h
      rw [entriesLookup, entriesLookup]
      rw [if_neg h', if_neg h']

theorem entriesLookup_append_mem_ne_last (l1 : List (String × Nat)) :
    ∀ (p : String) (l2 l2' : List (String × Nat)) (k : String),
    k ∈ mruNames l1 → k ≠ lastName p l1 →
    entriesLookup p (l1 ++ l2) k = entriesLookup p (l1 ++ l2') k := by
  induction l1 with
  | nil =>
      intro p l2 l2' k hk _
      cases hk
  | cons x l1 ih =>
      intro p l2 l2' k hk hlast
      rw [List.cons_append, List.cons_append, entriesLookup, entriesLookup]
      by_cases hx : k = x.1
      · rw [if_pos hx, if_pos hx]
        cases l1 with
        | nil =>
            rw [lastName_cons, lastName_nil] at hlast
            exact absurd hx hlast
        | cons y ys =>
            rw [chainNextName_append (y :: ys) l2 (by simp),
                chainNextName_append (y :: ys) l2' (by simp)]
      · rw [if_neg hx, if_neg hx]
        have hk' : k ∈ mruNames l1 := by
          rcases List.mem_cons.mp hk with hh | hh
          · exact absurd hh hx
          · exact hh
        refine ih x.1 l2 l2' k hk' ?_
        rw [lastName_cons] at hlast
        exact hlast

theorem sumSz_append_cons (l1 l2 : List (String × Nat)) (e : String) (s : Nat) :
    sumSz (l1 ++ (e, s) :: l2) = sumSz (l1 ++ l2) + s := by
  unfold sumSz
  simp [List.sum_append]
  omega

theorem entriesLookup_first (p : String) (f : String × Nat) (l : List (String × Nat)) :
    entriesLookup p (f :: l) f.1 = some ⟨p, chainNextName l, f.2⟩ := by
  rw [entriesLookup, if_pos rfl]

/-- The record of entry e in the model state. -/
theorem modelSt_entry (l1 l2 : List (String × Nat)) (e : String) (s extra : Nat)
    (hwf : WFmru (l1 ++ (e, s) :: l2)) :
    modelSt (l1 ++ (e, s) :: l2) extra e =
      some ⟨lastName HeadS l1, chainNextName l2, s⟩ := by
  obtain ⟨hel1, -, -, heH, -, -, -⟩ := WFmru_decomp l1 l2 e s hwf
  unfold modelSt
  rw [if_neg heH]
  rw [entriesLookup_append_notmem l1 HeadS _ e hel1]
  exact entriesLookup_first (lastName HeadS l1) (e, s) l2

end Lmake

namespace Lmake

theorem fst_pair (a : St) (b : Nat) : (a, b).1 = a := rfl

theorem Lru.ext3 (a b : Lru) (h1 : a.prev_s = b.prev_s) (h2 : a.next_s = b.next_s)
    (h3 : a.sz = b.sz) : a = b := by
  cases a
  cases b
  simp_all

theorem lru_remove_eq_none (st : St) (e : String) (h : st e = none) :
    lru_remove st e = (st, 0) := by
  unfold lru_remove
  rw [h]

theorem lru_remove_eq_some (st : St) (e : String) (here : Lru) (h : st e = some here) :
    lru_remove st e =
      (if here.prev_s = here.next_s then
        (writeLru st here.prev_s ⟨here.prev_s, here.next_s, (readLru st here.prev_s).sz⟩,
         here.sz)
       else
        (writeLru (writeLru st here.prev_s
            ⟨(readLru st here.prev_s).prev_s, here.next_s, (readLru st here.prev_s).sz⟩)
           here.next_s ⟨here.prev_s, (readLru st here.next_s).next_s, (readLru st here.next_s).sz⟩,
         here.sz)) := by
  unfold lru_remove
  rw [h]

theorem lastName_append_ne_nil (p : String) (l1 l2 : List (String × Nat)) (h : l2 ≠ []) :
    lastName p (l1 ++ l2) = lastName p l2 := by
  cases l2 with
  | nil => exact absurd rfl h
  | cons f l2' =>
      rw [lastName_append_cons, lastName_cons]

/-- DirCache::_lru_remove on a well-formed model state with the entry present:
the entry's size is returned, and every file other than the entry's own (left
stale, then overwritten or deleted by the caller) matches the model without
the entry, the entry's size moving into the head extra. -/
theorem lru_remove_model (l1 l2 : List (String × Nat)) (e : String) (s extra : Nat)
    (hwf : WFmru (l1 ++ (e, s) :: l2)) :
    (lru_remove (modelSt (l1 ++ (e, s) :: l2) extra) e).2 = s ∧
    ∀ k, k ≠ e → (lru_remove (modelSt (l1 ++ (e, s) :: l2) extra) e).1 k
        = modelSt (l1 ++ l2) (extra + s) k := by
  obtain ⟨hel1, hel2, hdisj, heH, hH1, hH2, hwf'⟩ := WFmru_decomp l1 l2 e s hwf
  have hhere := modelSt_entry l1 l2 e s extra hwf
  rw [lru_remove_eq_some _ e _ hhere]
  simp only
  by_cases hPN : lastName HeadS l1 = chainNextName l2
  · have hl1 : l1 = [] := by
      by_cases h1 : l1 = []
      · exact h1
      · exfalso
        have hPmem : lastName HeadS l1 ∈ mruNames l1 := lastName_mem HeadS l1 h1
        by_cases h2 : l2 = []
        · subst h2
          have hPN' : lastName HeadS l1 = HeadS := hPN
          rw [hPN'] at hPmem
          exact hH1 hPmem
        · have hNmem : chainNextName l2 ∈ mruNames l2 := chainNextName_mem l2 h2
          rw [← hPN] at hNmem
          exact hdisj _ hPmem hNmem
    have hl2 : l2 = [] := by
      subst hl1
      rw [lastName_nil] at hPN
      by_cases h2 : l2 = []
      · exact h2
      · have := chainNextName_mem l2 h2
        rw [← hPN] at this
        exact absurd this hH2
    subst hl1
    subst hl2
    rw [if_pos hPN]
    refine ⟨rfl, ?_⟩
    intro k hk
    simp only [List.nil_append]
    have hP0 : lastName HeadS ([] : List (String × Nat)) = HeadS := rfl
    have hN0 : chainNextName ([] : List (String × Nat)) = HeadS := rfl
    rw [hP0, hN0]
    by_cases hkH : k = HeadS
    · subst hkH
      rw [writeLru_self, modelSt_head]
      refine congrArg some (Lru.ext3 _ _ rfl rfl ?_)
      show (readLru (modelSt [(e, s)] extra) HeadS).sz = sumSz [] + (extra + s)
      rw [readLru, modelSt_head]
      show sumSz [(e, s)] + extra = sumSz [] + (extra + s)
      simp [sumSz]
      omega
    · rw [writeLru_other _ _ _ _ hkH]
      rw [modelSt_not_mem _ _ _ hkH (by simp [mruNames] ; exact hk),
          modelSt_not_mem _ _ _ hkH (by simp [mruNames])]
  · rw [if_neg hPN]
    refine ⟨rfl, ?_⟩
    intro k hk
    rw [fst_pair]
    by_cases hkN : k = chainNextName l2
    · rw [hkN, writeLru_self]
      cases hl2eq : l2 with
      | nil =>
          have hN0 : chainNextName ([] : List (String × Nat)) = HeadS := rfl
          subst hl2eq
          rw [hN0] at hkN ⊢
          have hl1ne : l1 ≠ [] := by
            rintro rfl
            exact hPN (by rw [lastName_nil, hN0])
          rw [List.append_nil, modelSt_head]
          refine congrArg some (Lru.ext3 _ _ rfl ?_ ?_)
          · show (readLru (modelSt (l1 ++ [(e, s)]) extra) HeadS).next_s = chainNextName l1
            rw [readLru, modelSt_head]
            show chainNextName (l1 ++ [(e, s)]) = chainNextName l1
            exact chainNextName_append l1 [(e, s)] hl1ne
          · show (readLru (modelSt (l1 ++ [(e, s)]) extra) HeadS).sz = sumSz l1 + (extra + s)
            rw [readLru, modelSt_head]
            show sumSz (l1 ++ [(e, s)]) + extra = sumSz l1 + (extra + s)
            have := sumSz_append_cons l1 [] e s
            rw [List.append_nil] at this
            omega
      | cons f l2' =>
          subst hl2eq
          have hNf : chainNextName (f :: l2') = f.1 := rfl
          rw [hNf] at hkN ⊢
          have hfH : f.1 ≠ HeadS := by
            intro hh
            exact hH2 (by rw [← hh] ; exact List.mem_cons_self _ _)
          have hfl1 : f.1 ∉ mruNames l1 := by
            intro hh
            exact hdisj _ hh (List.mem_cons_self _ _)
          have hfe : f.1 ≠ e := by
            intro hh
            exact hel2 (by rw [← hh] ; exact List.mem_cons_self _ _)
          have hlhs : readLru (modelSt (l1 ++ (e, s) :: f :: l2') extra) f.1 =
              ⟨e, chainNextName l2', f.2⟩ := by
            rw [readLru]
            unfold modelSt
            rw [if_neg hfH]
            rw [entriesLookup_append_notmem l1 HeadS _ f.1 hfl1]
            rw [entriesLookup]
            rw [if_neg hfe]
            rw [entriesLookup_first]
            rfl
          rw [hlhs]
          have hrhs : modelSt (l1 ++ f :: l2') (extra + s) f.1 =
              some ⟨lastName HeadS l1, chainNextName l2', f.2⟩ := by
            unfold modelSt
            rw [if_neg hfH]
            rw [entriesLookup_append_notmem l1 HeadS _ f.1 hfl1]
            rw [entriesLookup_first]
          rw [hrhs]
    · rw [writeLru_other _ _ _ _ hkN]
      by_cases hkP : k = lastName HeadS l1
      · rw [hkP, writeLru_self]
        rcases List.eq_nil_or_concat l1 with hl1eq | ⟨l1', g, hl1eq⟩
        · subst hl1eq
          rw [lastName_nil] at hkP ⊢
          have hl2ne : l2 ≠ [] := by
            rintro rfl
            exact hkN (by rw [hkP] ; rfl)
          simp only [List.nil_append] at *
          rw [modelSt_head]
          refine congrArg some (Lru.ext3 _ _ ?_ rfl ?_)
          · show (readLru (modelSt ((e, s) :: l2) extra) HeadS).prev_s = chainPrevName l2
            rw [readLru, modelSt_head]
            show chainPrevName ((e, s) :: l2) = chainPrevName l2
            rw [chainPrevName_eq_lastName, chainPrevName_eq_lastName, lastName_cons]
            exact lastName_irrel _ _ l2 hl2ne
          · show (readLru (modelSt ((e, s) :: l2) extra) HeadS).sz = sumSz l2 + (extra + s)
            rw [readLru, modelSt_head]
            show sumSz ((e, s) :: l2) + extra = sumSz l2 + (extra + s)
            simp [sumSz]
            omega
        · rw [List.concat_eq_append] at hl1eq
          subst hl1eq
          have hPg : lastName HeadS (l1' ++ [g]) = g.1 := by
            rw [lastName_append_cons, lastName_nil]
          rw [hPg] at hkP ⊢
          have hshape : (l1' ++ [g]) ++ (e, s) :: l2 = l1' ++ g :: ((e, s) :: l2) := by
            simp
          have hshape2 : (l1' ++ [g]) ++ l2 = l1' ++ g :: l2 := by
            simp
          obtain ⟨hgl1', hgrest, -, hgH, -, -, -⟩ :=
            WFmru_decomp l1' ((e, s) :: l2) g.1 g.2 (by
              rw [← hshape]
              exact hwf)
          have hlhs : readLru (modelSt ((l1' ++ [g]) ++ (e, s) :: l2) extra) g.1 =
              ⟨lastName HeadS l1', e, g.2⟩ := by
            rw [readLru]
            unfold modelSt
            rw [if_neg hgH]
            rw [hshape]
            rw [entriesLookup_append_notmem l1' HeadS _ g.1 hgl1']
            have : (g.1, g.2) = g := rfl
            rw [← this, entriesLookup_first]
            rfl
          rw [hlhs]
          have hrhs : modelSt ((l1' ++ [g]) ++ l2) (extra + s) g.1 =
              some ⟨lastName HeadS l1', chainNextName l2, g.2⟩ := by
            unfold modelSt
            rw [if_neg hgH]
            rw [hshape2]
            rw [entriesLookup_append_notmem l1' HeadS _ g.1 hgl1']
            have : (g.1, g.2) = g := rfl
            rw [← this, entriesLookup_first]
          rw [hrhs]
      · rw [writeLru_other _ _ _ _ hkP]
        by_cases hkH : k = HeadS
        · subst hkH
          have hl1ne : l1 ≠ [] := by
            rintro rfl
            exact hkP (by rw [lastName_nil])
          have hl2ne : l2 ≠ [] := by
            rintro rfl
            exact hkN rfl
          rw [modelSt_head, modelSt_head]
          refine congrArg some (Lru.ext3 _ _ ?_ ?_ ?_)
          · show chainPrevName (l1 ++ (e, s) :: l2) = chainPrevName (l1 ++ l2)
            rw [chainPrevName_eq_lastName, chainPrevName_eq_lastName]
            rw [lastName_append_cons]
            rw [lastName_append_ne_nil HeadS l1 l2 hl2ne]
            exact lastName_irrel _ _ l2 hl2ne
          · show chainNextName (l1 ++ (e, s) :: l2) = chainNextName (l1 ++ l2)
            rw [chainNextName_append l1 _ hl1ne, chainNextName_append l1 _ hl1ne]
          · show sumSz (l1 ++ (e, s) :: l2) + extra = sumSz (l1 ++ l2) + (extra + s)
            have := sumSz_append_cons l1 l2 e s
            omega
        · by_cases hkl1 : k ∈ mruNames l1
          · unfold modelSt
            rw [if_neg hkH, if_neg hkH]
            exact entriesLookup_append_mem_ne_last l1 HeadS _ l2 k hkl1 hkP
          · by_cases hkl2 : k ∈ mruNames l2
            · have hkl1' : k ∉ mruNames l1 := hkl1
              unfold modelSt
              rw [if_neg hkH, if_neg hkH]
              rw [entriesLookup_append_notmem l1 HeadS _ k hkl1',
                  entriesLookup_append_notmem l1 HeadS _ k hkl1']
              rw [entriesLookup, if_neg hk]
              exact entriesLookup_prev_irrel e (lastName HeadS l1) l2 k hkN
            · rw [modelSt_not_mem _ _ _ hkH (by
                  intro hh
                  unfold mruNames at hh
                  rw [List.map_append, List.mem_append] at hh
                  rcases hh with hh | hh
                  · exact hkl1 hh
                  · rw [List.map_cons, List.mem_cons] at hh
                    rcases hh with hh | hh
                    · exact hk hh
                    · exact hkl2 hh),
                modelSt_not_mem _ _ _ hkH (by
                  intro hh
                  unfold mruNames at hh
                  rw [List.map_append, List.mem_append] at hh
                  rcases hh with hh | hh
                  · exact hkl1 hh
                  · exact hkl2 hh)]

end Lmake

namespace Lmake

theorem sumSz_concat (l : List (String × Nat)) (t : String × Nat) :
    sumSz (l ++ [t]) = sumSz l + t.2 := by
  simp [sumSz]

theorem mruNames_append (l1 l2 : List (String × Nat)) :
    mruNames (l1 ++ l2) = mruNames l1 ++ mruNames l2 := by
  unfold mruNames
  rw [List.map_append]

theorem mruNames_cons (x : String × Nat) (l : List (String × Nat)) :
    mruNames (x :: l) = x.1 :: mruNames l := rfl

/-- _lru_remove of an entry with no lru file is a no-op returning size 0. -/
theorem lru_remove_model_absent (mru : List (String × Nat)) (e : String) (extra : Nat)
    (he : e ≠ HeadS) (hem : e ∉ mruNames mru) :
    lru_remove (modelSt mru extra) e = (modelSt mru extra, 0) :=
  lru_remove_eq_none _ _ (modelSt_not_mem mru extra e he hem)

theorem mem_mruNames_decomp (mru : List (String × Nat)) (e : String)
    (hm : e ∈ mruNames mru) : ∃ l1 s l2, mru = l1 ++ (e, s) :: l2 := by
  unfold mruNames at hm
  obtain ⟨p, hp, hpe⟩ := List.mem_map.1 hm
  obtain ⟨l1, l2, h⟩ := List.append_of_mem hp
  refine ⟨l1, p.2, l2, ?_⟩
  rw [h]
  subst hpe
  rfl

/-- _lru_remove on any well-formed model state: the remaining chain is the state
minus the entry (pointwise away from the entry's own stale file), the returned
size moving into the head slack. -/
theorem lru_remove_model_all (mru : List (String × Nat)) (e : String) (extra : Nat)
    (hwf : WFmru mru) (he : e ≠ HeadS) :
    ∃ mru', WFmru mru' ∧ e ∉ mruNames mru' ∧ mru'.length ≤ mru.length ∧
      sumSz mru' + (lru_remove (modelSt mru extra) e).2 = sumSz mru ∧
      ∀ k, k ≠ e → (lru_remove (modelSt mru extra) e).1 k
          = modelSt mru' (extra + (lru_remove (modelSt mru extra) e).2) k := by
  by_cases hm : e ∈ mruNames mru
  · obtain ⟨l1, s, l2, rfl⟩ := mem_mruNames_decomp mru e hm
    obtain ⟨hsz, hall⟩ := lru_remove_model l1 l2 e s extra hwf
    obtain ⟨hel1, hel2, -, -, -, -, hwf'⟩ := WFmru_decomp l1 l2 e s hwf
    refine ⟨l1 ++ l2, hwf', ?_, by simp, ?_, ?_⟩
    · rw [mruNames_append]
      intro hc
      rcases List.mem_append.mp hc with hc | hc
      · exact hel1 hc
      · exact hel2 hc
    · rw [hsz, sumSz_append_cons]
    · intro k hk
      rw [hsz]
      exact hall k hk
  · rw [lru_remove_model_absent mru e extra he hm]
    exact ⟨mru, hwf, hm, le_refl _, rfl, fun k _ => rfl⟩

end Lmake

namespace Lmake

theorem modelSt_ne_head (mru : List (String × Nat)) (extra : Nat) (k : String)
    (hk : k ≠ HeadS) : modelSt mru extra k = entriesLookup HeadS mru k := by
  unfold modelSt
  rw [if_neg hk]

/-- _lru_first on a state agreeing with the model away from the (possibly stale)
entry file: the entry is pushed at the front of the chain, its size coming out
of the head slack. -/
theorem lru_first_model (mru : List (String × Nat)) (e : String) (sz_ extra : Nat) (st : St)
    (hwf : WFmru mru) (he : e ≠ HeadS) (hem : e ∉ mruNames mru) (hsz : sz_ ≤ extra)
    (hst : ∀ k, k ≠ e → st k = modelSt mru extra k) :
    ∀ k, lru_first st e sz_ k = modelSt ((e, sz_) :: mru) (extra - sz_) k := by
  have hHe : HeadS ≠ e := fun h => he h.symm
  have hhead : readLru st HeadS = ⟨chainPrevName mru, chainNextName mru, sumSz mru + extra⟩ := by
    rw [readLru, hst HeadS hHe, modelSt_head]
    rfl
  intro k
  unfold lru_first
  rw [hhead]
  cases mru with
  | nil =>
      simp only [chainNextName]
      rw [if_pos trivial]
      by_cases hk : k = e
      · subst hk
        rw [writeLru_self, modelSt_ne_head _ _ _ he, entriesLookup, if_pos rfl]
        rfl
      · rw [writeLru_other _ _ _ _ hk]
        by_cases hkH : k = HeadS
        · subst hkH
          rw [writeLru_self, modelSt_head]
          refine congrArg some (Lru.ext3 _ _ ?_ ?_ ?_)
          · show e = chainPrevName [(e, sz_)]
            rw [chainPrevName_eq_lastName, lastName_cons, lastName_nil]
          · show e = chainNextName [(e, sz_)]
            rfl
          · show sumSz [] + extra = sumSz [(e, sz_)] + (extra - sz_)
            simp [sumSz]
            omega
        · rw [writeLru_other _ _ _ _ hkH]
          rw [hst k hk, modelSt_ne_head _ _ _ hkH, modelSt_ne_head _ _ _ hkH]
          simp [entriesLookup, hk]
  | cons f rest =>
      simp only [chainNextName]
      have hf1H : f.1 ≠ HeadS := by
        intro hh
        exact hwf.2 (by rw [← hh] ; exact List.mem_cons_self _ _)
      have hf1e : f.1 ≠ e := by
        intro hh
        exact hem (by rw [← hh] ; exact List.mem_cons_self _ _)
      rw [if_neg hf1H]
      have hfirst : readLru st f.1 = ⟨HeadS, chainNextName rest, f.2⟩ := by
        rw [readLru, hst f.1 hf1e, modelSt_ne_head _ _ _ hf1H, entriesLookup_first]
        rfl
      rw [hfirst]
      by_cases hk : k = e
      · subst hk
        rw [writeLru_self, modelSt_ne_head _ _ _ he, entriesLookup, if_pos rfl]
        rfl
      · rw [writeLru_other _ _ _ _ hk]
        by_cases hkH : k = HeadS
        · subst hkH
          rw [writeLru_self, modelSt_head]
          refine congrArg some (Lru.ext3 _ _ ?_ ?_ ?_)
          · show chainPrevName (f :: rest) = chainPrevName ((e, sz_) :: f :: rest)
            rw [chainPrevName_eq_lastName, chainPrevName_eq_lastName, lastName_cons,
                lastName_cons, lastName_cons]
          · show e = chainNextName ((e, sz_) :: f :: rest)
            rfl
          · show sumSz (f :: rest) + extra = sumSz ((e, sz_) :: f :: rest) + (extra - sz_)
            simp [sumSz]
            omega
        · rw [writeLru_other _ _ _ _ hkH]
          by_cases hkf : k = f.1
          · subst hkf
            rw [writeLru_self, modelSt_ne_head _ _ _ hkH, entriesLookup, if_neg hf1e,
                entriesLookup_first]
          · rw [writeLru_other _ _ _ _ hkf]
            rw [hst k hk, modelSt_ne_head _ _ _ hkH, modelSt_ne_head _ _ _ hkH]
            have hstep : entriesLookup HeadS ((e, sz_) :: f :: rest) k
                = entriesLookup (e, sz_).1 (f :: rest) k := by
              rw [entriesLookup, if_neg hk]
            rw [hstep]
            exact entriesLookup_prev_irrel HeadS (e, sz_).1 (f :: rest) k hkf

end Lmake

namespace Lmake

theorem mk_room_loop_succ (cap newSz : Nat) (st : St) (headSz : Nat)
    (headPrev expNext : String) (sr : Bool) (fuel : Nat) :
    mk_room_loop cap newSz st headSz headPrev expNext sr (fuel + 1) =
      if headSz + newSz > cap then
        if headPrev = HeadS then none
        else
          match st headPrev with
          | none => none
          | some here =>
            if here.next_s ≠ expNext then none
            else if headSz < here.sz then none
            else mk_room_loop cap newSz (unlnkLru st headPrev) (headSz - here.sz)
                   here.prev_s headPrev true fuel
      else some (st, headSz, headPrev, sr) := by
  rfl

/-- The eviction loop: starting from a chain cur with the evicted suffix suf
already unlinked (and the expected-next assertion naming its first entry), the
loop either hits the empty-cache assertion (none), or drops a suffix of cur so
that what is kept plus the head slack and the new entry fit under the
capacity; entry files away from the uploaded entry e and the head reflect
exactly the kept part of the original chain. -/
theorem mk_room_loop_model (cap newSz : Nat) (e : String) (mru0 : List (String × Nat))
    (hnd : (mruNames mru0).Nodup) (hH : HeadS ∉ mruNames mru0) (hem : e ∉ mruNames mru0)
    (he : e ≠ HeadS) :
    ∀ (fuel : Nat) (cur suf : List (String × Nat)) (δ : Nat) (st : St) (sr : Bool),
      cur ++ suf = mru0 →
      (∀ k, k ≠ e → k ≠ HeadS →
        st k = if k ∈ mruNames suf then none else entriesLookup HeadS mru0 k) →
      cur.length < fuel →
      mk_room_loop cap newSz st (sumSz cur + δ) (chainPrevName cur) (chainNextName suf)
          sr fuel = none ∨
      ∃ kept dropped st',
        cur = kept ++ dropped ∧
        mk_room_loop cap newSz st (sumSz cur + δ) (chainPrevName cur) (chainNextName suf)
            sr fuel
          = some (st', sumSz kept + δ, chainPrevName kept, sr || !dropped.isEmpty) ∧
        sumSz kept + δ + newSz ≤ cap ∧
        ∀ k, k ≠ e → k ≠ HeadS →
          st' k = if k ∈ mruNames (dropped ++ suf) then none
                  else entriesLookup HeadS mru0 k := by
  intro fuel
  induction fuel with
  | zero =>
      intro cur suf δ st sr _ _ h4
      exact absurd h4 (Nat.not_lt_zero _)
  | succ n ih =>
      intro cur suf δ st sr hsplit hst hfuel
      rw [mk_room_loop_succ]
      by_cases hover : sumSz cur + δ + newSz > cap
      · rcases List.eq_nil_or_concat cur with rfl | ⟨init, t, hcc⟩
        · left
          rw [if_pos hover]
          have hp : chainPrevName ([] : List (String × Nat)) = HeadS := rfl
          rw [hp, if_pos rfl]
        rw [List.concat_eq_append] at hcc
        subst hcc
        have hprevt : chainPrevName (init ++ [t]) = t.1 := by
          rw [chainPrevName_eq_lastName, lastName_append_cons, lastName_nil]
        have hassoc : init ++ t :: suf = mru0 := by
          rw [← hsplit]
          simp
        have ht1mem : t.1 ∈ mruNames mru0 := by
          rw [← hassoc, mruNames_append]
          exact List.mem_append.mpr (Or.inr (List.mem_cons_self _ _))
        have ht1H : t.1 ≠ HeadS := fun hh => hH (hh ▸ ht1mem)
        have ht1e : t.1 ≠ e := fun hh => hem (hh ▸ ht1mem)
        have ht1suf : t.1 ∉ mruNames suf := by
          have hnd' := hnd
          rw [← hassoc, mruNames_append, List.nodup_append] at hnd'
          have h2 := hnd'.2.1
          rw [mruNames_cons, List.nodup_cons] at h2
          exact h2.1
        have hwf0 : WFmru (init ++ (t.1, t.2) :: suf) := by
          rw [hassoc]
          exact ⟨hnd, hH⟩
        have hlook : entriesLookup HeadS mru0 t.1
            = some ⟨lastName HeadS init, chainNextName suf, t.2⟩ := by
          have h1 := modelSt_entry init suf t.1 t.2 0 hwf0
          rw [modelSt_ne_head _ _ _ ht1H] at h1
          rw [← hassoc]
          exact h1
        have hstt : st t.1 = some ⟨lastName HeadS init, chainNextName suf, t.2⟩ := by
          rw [hst t.1 ht1e ht1H, if_neg ht1suf]
          exact hlook
        rw [if_pos hover, hprevt, if_neg ht1H]
        rw [hstt]
        simp only
        rw [if_neg (by simp : ¬chainNextName suf ≠ chainNextName suf)]
        rw [if_neg (show ¬sumSz (init ++ [t]) + δ < t.2 by
          rw [sumSz_concat]
          omega)]
        have harith : sumSz (init ++ [t]) + δ - t.2 = sumSz init + δ := by
          rw [sumSz_concat]
          omega
        have hst2 : ∀ k, k ≠ e → k ≠ HeadS →
            unlnkLru st t.1 k = if k ∈ mruNames (t :: suf) then none
                                else entriesLookup HeadS mru0 k := by
          intro k hk1 hk2
          by_cases hkt : k = t.1
          · subst hkt
            rw [mruNames_cons, unlnkLru_self, if_pos (List.mem_cons_self _ _)]
          · rw [unlnkLru_other _ _ _ hkt, hst k hk1 hk2, mruNames_cons]
            by_cases hks : k ∈ mruNames suf
            · rw [if_pos hks, if_pos (List.mem_cons_of_mem _ hks)]
            · rw [if_neg hks, if_neg (by
                intro hc
                rcases List.mem_cons.mp hc with hc | hc
                · exact hkt hc
                · exact hks hc)]
        have hfuel' : init.length < n := by
          rw [List.length_append] at hfuel
          simp at hfuel
          omega
        have hcn : chainNextName (t :: suf) = t.1 := rfl
        rcases ih init (t :: suf) δ (unlnkLru st t.1) true hassoc hst2 hfuel'
            with hnone | ⟨kept, dropped, st', hkd, hrun, hcap2, hst'⟩
        · left
          rw [hcn] at hnone
          rw [chainPrevName_eq_lastName init] at hnone
          rw [harith, hnone]
        · right
          rw [hcn] at hrun
          rw [chainPrevName_eq_lastName init] at hrun
          refine ⟨kept, dropped ++ [t], st', ?_, ?_, hcap2, ?_⟩
          · rw [hkd]
            simp
          · rw [harith, hrun]
            simp
          · intro k hk1 hk2
            rw [hst' k hk1 hk2]
            have : dropped ++ t :: suf = (dropped ++ [t]) ++ suf := by
              simp
            rw [this]
      · rw [if_neg hover]
        right
        refine ⟨cur, [], st, by simp, by simp, by omega, ?_⟩
        intro k hk1 hk2
        rw [List.nil_append]
        exact hst k hk1 hk2

end Lmake

namespace Lmake

/-- DirCache::_mk_room on a state agreeing with the model away from the
(possibly stale) entry file e: whenever it completes (its capacity throw and
assertions not hit), it has dropped a tail suffix of the chain so that what is
kept fits, and the result agrees away from e with the model of the kept
prefix, the head slack having exchanged oldSz for newSz. -/
theorem mk_room_model (mru : List (String × Nat)) (extra oldSz newSz cap fuel : Nat)
    (e : String) (st st' : St)
    (hwf : WFmru mru) (he : e ≠ HeadS) (hem : e ∉ mruNames mru)
    (hst : ∀ k, k ≠ e → st k = modelSt mru extra k)
    (hold : oldSz ≤ extra) (hfuel : mru.length < fuel)
    (hsucc : mk_room st cap oldSz newSz fuel = some st') :
    ∃ kept dropped, mru = kept ++ dropped ∧
      WFmru kept ∧ e ∉ mruNames kept ∧ kept.length ≤ mru.length ∧
      ∀ k, k ≠ e → st' k = modelSt kept (extra - oldSz + newSz) k := by
  obtain ⟨hnd, hH⟩ := hwf
  have hHe : HeadS ≠ e := fun h => he h.symm
  have hhead : readLru st HeadS = ⟨chainPrevName mru, chainNextName mru, sumSz mru + extra⟩ := by
    rw [readLru, hst HeadS hHe, modelSt_head]
    rfl
  have hsz0 : (readLru st HeadS).sz = sumSz mru + extra := by rw [hhead]
  have hprev0 : (readLru st HeadS).prev_s = chainPrevName mru := by rw [hhead]
  have hnext0 : (readLru st HeadS).next_s = chainNextName mru := by rw [hhead]
  unfold mk_room at hsucc
  rw [hsz0, hprev0, hnext0] at hsucc
  by_cases hnc : newSz > cap
  · rw [if_pos hnc] at hsucc
    cases hsucc
  rw [if_neg hnc] at hsucc
  rw [if_neg (show ¬sumSz mru + extra < oldSz by omega)] at hsucc
  have harith : sumSz mru + extra - oldSz = sumSz mru + (extra - oldSz) := by omega
  rw [harith] at hsucc
  have hcn : chainNextName ([] : List (String × Nat)) = HeadS := rfl
  rcases mk_room_loop_model cap newSz e mru hnd hH hem he fuel mru [] (extra - oldSz) st
      false (by simp)
      (by
        intro k hk1 hk2
        rw [hst k hk1, modelSt_ne_head _ _ _ hk2,
            if_neg (show ¬k ∈ mruNames ([] : List (String × Nat)) by simp [mruNames])])
      hfuel
    with hnone | ⟨kept, dropped, st1, hkd, hrun, hcap2, hst1⟩
  · rw [hcn] at hnone
    rw [hnone] at hsucc
    cases hsucc
  rw [hcn] at hrun
  simp only [hrun] at hsucc
  rw [if_neg (show ¬sumSz kept + (extra - oldSz) + newSz > cap by omega)] at hsucc
  injection hsucc with hsucc
  subst hsucc
  have hst1' : ∀ k, k ≠ e → k ≠ HeadS →
      st1 k = if k ∈ mruNames dropped then none else entriesLookup HeadS mru k := by
    intro k h1 h2
    rw [hst1 k h1 h2, List.append_nil]
  have hnames : mruNames mru = mruNames kept ++ mruNames dropped := by
    rw [hkd, mruNames_append]
  have hndall : (mruNames kept).Nodup ∧ (mruNames dropped).Nodup ∧
      ∀ a, a ∈ mruNames kept → a ∉ mruNames dropped := by
    have h : (mruNames mru).Nodup := hnd
    rw [hnames, List.nodup_append] at h
    exact ⟨h.1, h.2.1, fun a ha1 ha2 => h.2.2 ha1 ha2⟩
  have hHk : HeadS ∉ mruNames kept := by
    intro hc
    apply hH
    show HeadS ∈ mruNames mru
    rw [hnames]
    exact List.mem_append.mpr (Or.inl hc)
  have hek : e ∉ mruNames kept := by
    intro hc
    apply hem
    show e ∈ mruNames mru
    rw [hnames]
    exact List.mem_append.mpr (Or.inl hc)
  have hwfk : WFmru kept := ⟨hndall.1, hHk⟩
  have hlen : kept.length ≤ mru.length := by
    rw [hkd, List.length_append]
    omega
  cases dropped with
  | nil =>
      have hkm : mru = kept := by
        rw [hkd, List.append_nil]
      have hb : (false || !(([] : List (String × Nat)).isEmpty)) = false := rfl
      rw [hb]
      refine ⟨kept, [], hkd, hwfk, hek, hlen, ?_⟩
      intro k hk1
      rw [if_neg (show ¬((false = true) ∧ chainPrevName kept ≠ HeadS) by simp)]
      rw [if_neg (show ¬((false = true) ∧ chainPrevName kept = HeadS) by simp)]
      by_cases hkH : k = HeadS
      · subst hkH
        rw [writeLru_self, modelSt_head]
        refine congrArg some (Lru.ext3 _ _ ?_ ?_ ?_)
        · show chainPrevName kept = chainPrevName kept
          rfl
        · show chainNextName mru = chainNextName kept
          rw [hkm]
        · show sumSz kept + (extra - oldSz) + newSz = sumSz kept + (extra - oldSz + newSz)
          omega
      · rw [writeLru_other _ _ _ _ hkH, hst1' k hk1 hkH, modelSt_ne_head _ _ _ hkH,
            if_neg (show ¬k ∈ mruNames ([] : List (String × Nat)) by simp [mruNames]),
            hkm]
  | cons d ds =>
      have hb : (false || !(((d :: ds) : List (String × Nat)).isEmpty)) = true := rfl
      rw [hb]
      rcases List.eq_nil_or_concat kept with rfl | ⟨init, t, hcc⟩
      · have hp : chainPrevName ([] : List (String × Nat)) = HeadS := rfl
        rw [hp]
        rw [if_neg (show ¬((true = true) ∧ HeadS ≠ HeadS) by simp)]
        rw [if_pos (show (true = true) ∧ HeadS = HeadS from ⟨rfl, rfl⟩)]
        have hmd : mru = d :: ds := by
          rw [hkd, List.nil_append]
        refine ⟨[], d :: ds, hkd, hwfk, hek, hlen, ?_⟩
        intro k hk1
        by_cases hkH : k = HeadS
        · subst hkH
          rw [writeLru_self, modelSt_head]
          refine congrArg some (Lru.ext3 _ _ ?_ ?_ ?_)
          · show HeadS = chainPrevName ([] : List (String × Nat))
            rfl
          · show HeadS = chainNextName ([] : List (String × Nat))
            rfl
          · show sumSz ([] : List (String × Nat)) + (extra - oldSz) + newSz
              = sumSz ([] : List (String × Nat)) + (extra - oldSz + newSz)
            omega
        · rw [writeLru_other _ _ _ _ hkH, hst1' k hk1 hkH,
              modelSt_ne_head _ _ _ hkH]
          by_cases hkdd : k ∈ mruNames (d :: ds)
          · rw [if_pos hkdd]
            rfl
          · rw [if_neg hkdd, hmd, entriesLookup_not_mem _ _ _ hkdd]
            rfl
      · rw [List.concat_eq_append] at hcc
        subst hcc
        have hprevt : chainPrevName (init ++ [t]) = t.1 := by
          rw [chainPrevName_eq_lastName, lastName_append_cons, lastName_nil]
        rw [hprevt]
        have ht1k : t.1 ∈ mruNames (init ++ [t]) := by
          rw [mruNames_append]
          exact List.mem_append.mpr (Or.inr (List.mem_cons_self _ _))
        have ht1H : t.1 ≠ HeadS := fun hh => hHk (hh ▸ ht1k)
        have ht1e : t.1 ≠ e := fun hh => hek (hh ▸ ht1k)
        have ht1dd : t.1 ∉ mruNames (d :: ds) := hndall.2.2 t.1 ht1k
        have hassoc2 : init ++ t :: (d :: ds) = mru := by
          rw [hkd]
          simp
        have hwfX : WFmru (init ++ (t.1, t.2) :: (d :: ds)) := by
          rw [hassoc2]
          exact ⟨hnd, hH⟩
        have hlook : entriesLookup HeadS mru t.1
            = some ⟨lastName HeadS init, chainNextName (d :: ds), t.2⟩ := by
          have h1 := modelSt_entry init (d :: ds) t.1 t.2 0 hwfX
          rw [modelSt_ne_head _ _ _ ht1H] at h1
          rw [← hassoc2]
          exact h1
        have hread : readLru st1 t.1 = ⟨lastName HeadS init, chainNextName (d :: ds), t.2⟩ := by
          rw [readLru, hst1' t.1 ht1e ht1H, if_neg ht1dd, hlook]
          rfl
        rw [if_pos (show (true = true) ∧ t.1 ≠ HeadS from ⟨rfl, ht1H⟩)]
        rw [if_neg (show ¬((true = true) ∧ t.1 = HeadS) from fun h => ht1H h.2)]
        rw [hread]
        have hnk : chainNextName mru = chainNextName (init ++ [t]) := by
          rw [hkd]
          exact chainNextName_append _ _ (by simp)
        rw [hnk]
        refine ⟨init ++ [t], d :: ds, hkd, hwfk, hek, hlen, ?_⟩
        intro k hk1
        by_cases hkH : k = HeadS
        · subst hkH
          rw [writeLru_self, modelSt_head]
          refine congrArg some (Lru.ext3 _ _ ?_ ?_ ?_)
          · show t.1 = chainPrevName (init ++ [t])
            exact hprevt.symm
          · show chainNextName (init ++ [t]) = chainNextName (init ++ [t])
            rfl
          · show sumSz (init ++ [t]) + (extra - oldSz) + newSz
              = sumSz (init ++ [t]) + (extra - oldSz + newSz)
            omega
        · rw [writeLru_other _ _ _ _ hkH]
          by_cases hkt : k = t.1
          · subst hkt
            rw [writeLru_self]
            have hmk := modelSt_entry init [] t.1 t.2 (extra - oldSz + newSz) hwfk
            rw [hmk]
            rfl
          · rw [writeLru_other _ _ _ _ hkt, hst1' k hk1 hkH, modelSt_ne_head _ _ _ hkH]
            by_cases hkdd : k ∈ mruNames (d :: ds)
            · rw [if_pos hkdd]
              have hknk : k ∉ mruNames (init ++ [t]) := fun hc => hndall.2.2 k hc hkdd
              rw [entriesLookup_not_mem _ _ _ hknk]
            · rw [if_neg hkdd]
              by_cases hkk : k ∈ mruNames (init ++ [t])
              · have hlast : k ≠ lastName HeadS (init ++ [t]) := by
                  rw [lastName_append_cons, lastName_nil]
                  exact hkt
                rw [hkd]
                have h := entriesLookup_append_mem_ne_last (init ++ [t]) HeadS (d :: ds) [] k
                  hkk hlast
                rw [List.append_nil] at h
                exact h
              · have hknm : k ∉ mruNames mru := by
                  rw [hnames]
                  intro hc
                  rcases List.mem_append.mp hc with hc | hc
                  · exact hkk hc
                  · exact hkdd hc
                rw [entriesLookup_not_mem _ _ _ hknm, entriesLookup_not_mem _ _ _ hkk]

end Lmake

namespace Lmake

theorem chkFrom_model_aux (mru : List (String × Nat)) (extra : Nat) (st : St)
    (hwf : WFmru mru)
    (hst : ∀ k, k = HeadS ∨ k ∈ mruNames mru → st k = modelSt mru extra k) :
    ∀ (l2 l1 : List (String × Nat)), mru = l1 ++ l2 →
      chkFrom st (lastName HeadS l1) (chainNextName l2) (mruNames l2) := by
  intro l2
  induction l2 with
  | nil =>
      intro l1 hsp
      show chainNextName ([] : List (String × Nat)) = HeadS ∧
        (readLru st HeadS).prev_s = lastName HeadS l1
      refine ⟨rfl, ?_⟩
      rw [readLru, hst HeadS (Or.inl rfl), modelSt_head]
      show chainPrevName mru = lastName HeadS l1
      rw [hsp, List.append_nil, chainPrevName_eq_lastName]
  | cons f rest ih =>
      intro l1 hsp
      have hf1m : f.1 ∈ mruNames mru := by
        rw [hsp, mruNames_append, mruNames_cons]
        exact List.mem_append.mpr (Or.inr (List.mem_cons_self _ _))
      have hf1H : f.1 ≠ HeadS := fun hh => hwf.2 (hh ▸ hf1m)
      show chainNextName (f :: rest) = f.1 ∧ f.1 ≠ HeadS ∧
        ∃ r, st f.1 = some r ∧ r.prev_s = lastName HeadS l1 ∧
          chkFrom st f.1 r.next_s (mruNames rest)
      refine ⟨rfl, hf1H, ⟨lastName HeadS l1, chainNextName rest, f.2⟩, ?_, rfl, ?_⟩
      · rw [hst f.1 (Or.inr hf1m), hsp]
        exact modelSt_entry l1 rest f.1 f.2 extra (hsp ▸ hwf)
      · have h := ih (l1 ++ [f]) (by rw [hsp] ; simp)
        rw [lastName_append_cons, lastName_nil] at h
        exact h

theorem sumChain_model (mru : List (String × Nat)) (extra : Nat) (st : St)
    (hwf : WFmru mru)
    (hst : ∀ k, k = HeadS ∨ k ∈ mruNames mru → st k = modelSt mru extra k) :
    ∀ (l2 l1 : List (String × Nat)), mru = l1 ++ l2 →
      sumChain st (mruNames l2) = sumSz l2 := by
  intro l2
  induction l2 with
  | nil =>
      intro l1 _
      rfl
  | cons f rest ih =>
      intro l1 hsp
      have hf1m : f.1 ∈ mruNames mru := by
        rw [hsp, mruNames_append, mruNames_cons]
        exact List.mem_append.mpr (Or.inr (List.mem_cons_self _ _))
      have hread : readLru st f.1 = ⟨lastName HeadS l1, chainNextName rest, f.2⟩ := by
        rw [readLru, hst f.1 (Or.inr hf1m), hsp]
        rw [modelSt_entry l1 rest f.1 f.2 extra (hsp ▸ hwf)]
        rfl
      have hsc : sumChain st (mruNames (f :: rest))
          = (readLru st f.1).sz + sumChain st (mruNames rest) := by
        unfold sumChain
        rw [mruNames_cons, List.map_cons, List.sum_cons]
      have hss : sumSz (f :: rest) = f.2 + sumSz rest := by
        unfold sumSz
        rw [List.map_cons, List.sum_cons]
      rw [hsc, hss, hread, ih (l1 ++ [f]) (by rw [hsp] ; simp)]

/-- A state agreeing with the model of a well-formed chain at the head and on
all chain entries passes DirCache::chk with the head slack as delta. -/
theorem chkHolds_model_on (mru : List (String × Nat)) (extra : Nat) (st : St)
    (hwf : WFmru mru)
    (hst : ∀ k, k = HeadS ∨ k ∈ mruNames mru → st k = modelSt mru extra k) :
    chkHolds st extra := by
  have hhead : readLru st HeadS = ⟨chainPrevName mru, chainNextName mru, sumSz mru + extra⟩ := by
    rw [readLru, hst HeadS (Or.inl rfl), modelSt_head]
    rfl
  refine ⟨mruNames mru, hwf.1, ?_, ?_⟩
  · have hnext : (readLru st HeadS).next_s = chainNextName mru := by rw [hhead]
    rw [hnext]
    have h := chkFrom_model_aux mru extra st hwf hst mru [] (by simp)
    rw [lastName_nil] at h
    exact h
  · have hsz : (readLru st HeadS).sz = sumSz mru + extra := by rw [hhead]
    rw [hsz, sumChain_model mru extra st hwf hst mru [] (by simp)]

/-- As chkHolds_model_on, from agreement away from a stale file e outside the
chain. -/
theorem chkHolds_model_off (mru : List (String × Nat)) (extra : Nat) (e : String) (st : St)
    (hwf : WFmru mru) (he : e ≠ HeadS) (hem : e ∉ mruNames mru)
    (hst : ∀ k, k ≠ e → st k = modelSt mru extra k) :
    chkHolds st extra := by
  refine chkHolds_model_on mru extra st hwf ?_
  intro k hk
  rcases hk with rfl | hk
  · exact hst _ (fun h => he h.symm)
  · exact hst _ (fun h => hem (h ▸ hk))

/-- chkHolds for an exact model state. -/
theorem chkHolds_model (mru : List (String × Nat)) (extra : Nat)
    (hwf : WFmru mru) : chkHolds (modelSt mru extra) extra :=
  chkHolds_model_on mru extra (modelSt mru extra) hwf (fun _ _ => rfl)

end Lmake

namespace Lmake

/-- The LRU steps of DirCache::download (src/lmakeserver/caches/dir_cache.cc:269-271):
unlink the entry from the list, then re-insert it at the front with its size. -/
def dc_download_lru (st : St) (entry : String) : St :=
  lru_first (lru_remove st entry).1 entry (lru_remove st entry).2

/-- The cache state seen by upload: the lru files plus the payload files inside
the uploaded entry's directory. -/
structure CacheSt where
  lru : St
  entryFiles : List String

/-- DirCache::upload (src/lmakeserver/caches/dir_cache.cc:281-347) at the level
of the LRU files and the uploaded entry's directory: refuse jobs with a
date-carrying dep; otherwise _lru_remove the entry, wipe its directory
(unlnk_inside_s, which removes its stale lru file), and populate it.  A failure
while writing data/deps (failBefore), an entry larger than the cache (the
_mk_room throw), or a failure while copying targets — including the FileSig
check after copy (copyFail) — runs the catch block: wipe the directory again
and _mk_room(made_room ? new_sz : old_sz, 0), returning false.  On success the
entry holds data, deps and the targets and is pushed at the front of the LRU.
Internal _mk_room assertion failures surface as none. -/
def dc_upload (c : CacheSt) (entry : String) (deps : List DepDigest)
    (targets : List String) (cap newSz fuel : Nat) (failBefore copyFail : Bool) :
    Option (CacheSt × Bool) :=
  if deps.any (fun dd => !dd.is_crc) then some (c, false)
  else if failBefore then
    (mk_room (unlnkLru (lru_remove c.lru entry).1 entry) cap (lru_remove c.lru entry).2 0
      fuel).map (fun st2 => (⟨st2, []⟩, false))
  else if newSz > cap then
    (mk_room (unlnkLru (lru_remove c.lru entry).1 entry) cap (lru_remove c.lru entry).2 0
      fuel).map (fun st2 => (⟨st2, []⟩, false))
  else
    match mk_room (unlnkLru (lru_remove c.lru entry).1 entry) cap
        (lru_remove c.lru entry).2 newSz fuel with
    | none => none
    | some st1 =>
      if copyFail then
        (mk_room st1 cap newSz 0 fuel).map (fun st2 => (⟨st2, []⟩, false))
      else
        some (⟨lru_first st1 entry newSz, "data" :: "deps" :: targets⟩, true)

end Lmake

namespace Lmake

/-- C7: after every completed cache operation — match leaves the LRU files
untouched (a model state), download is _lru_remove then _lru_first, and upload
is _lru_remove then _mk_room then _lru_first on success, or a rollback
_mk_room on failure — the LRU structure satisfies the property DirCache::chk
verifies: following next from the head visits every entry exactly once and
returns to the head, each visited entry's prev names its predecessor (head.prev
being the last entry), and head.sz equals the sum of the entry sizes plus the
standing slack delta. -/
theorem dircache_lru_chk_invariant
    (mru : List (String × Nat)) (extra cap newSz fuel : Nat) (e : String)
    (deps : List DepDigest) (targets fs : List String) (failBefore copyFail : Bool)
    (hwf : WFmru mru) (he : e ≠ HeadS) (hfuel : mru.length < fuel) :
    chkHolds (modelSt mru extra) extra ∧
    chkHolds (dc_download_lru (modelSt mru extra) e) extra ∧
    (∀ c' ok,
      dc_upload ⟨modelSt mru extra, fs⟩ e deps targets cap newSz fuel failBefore copyFail
        = some (c', ok) →
      chkHolds c'.lru extra) := by
  obtain ⟨mru', hwf', hem', hlen', hsum', hall'⟩ := lru_remove_model_all mru e extra hwf he
  have hwfcons : ∀ sz0 : Nat, ∀ l : List (String × Nat), WFmru l → e ∉ mruNames l →
      WFmru ((e, sz0) :: l) := by
    intro sz0 l hl hel
    refine ⟨List.nodup_cons.mpr ⟨hel, hl.1⟩, ?_⟩
    intro hc
    rcases List.mem_cons.mp hc with hc | hc
    · exact he hc.symm
    · exact hl.2 hc
  refine ⟨chkHolds_model mru extra hwf, ?_, ?_⟩
  · have hfirst := lru_first_model mru' e (lru_remove (modelSt mru extra) e).2
      (extra + (lru_remove (modelSt mru extra) e).2) (lru_remove (modelSt mru extra) e).1
      hwf' he hem' (by omega) hall'
    have harith : extra + (lru_remove (modelSt mru extra) e).2
        - (lru_remove (modelSt mru extra) e).2 = extra := by omega
    rw [harith] at hfirst
    exact chkHolds_model_on _ extra _
      (hwfcons _ mru' hwf' hem') (fun k _ => hfirst k)
  · intro c' ok h
    unfold dc_upload at h
    by_cases hdep : (deps.any (fun dd => !dd.is_crc)) = true
    · rw [if_pos hdep] at h
      simp only [Option.some.injEq, Prod.mk.injEq] at h
      rw [← h.1]
      exact chkHolds_model mru extra hwf
    · rw [if_neg hdep] at h
      have hst0 : ∀ k, k ≠ e →
          unlnkLru (lru_remove (modelSt mru extra) e).1 e k
            = modelSt mru' (extra + (lru_remove (modelSt mru extra) e).2) k := by
        intro k hk
        rw [unlnkLru_other _ _ _ hk]
        exact hall' k hk
      have hfuel' : mru'.length < fuel := by omega
      have hrollback0 : ∀ st2,
          mk_room (unlnkLru (lru_remove (modelSt mru extra) e).1 e) cap
            (lru_remove (modelSt mru extra) e).2 0 fuel = some st2 →
          chkHolds st2 extra := by
        intro st2 hmk
        obtain ⟨kept, dropped, hkd, hwfk, hek, hlenk, hst2⟩ :=
          mk_room_model mru' (extra + (lru_remove (modelSt mru extra) e).2)
            (lru_remove (modelSt mru extra) e).2 0 cap fuel e _ st2 hwf' he hem' hst0
            (by omega) hfuel' hmk
        have harith2 : extra + (lru_remove (modelSt mru extra) e).2
            - (lru_remove (modelSt mru extra) e).2 + 0 = extra := by omega
        rw [harith2] at hst2
        exact chkHolds_model_off kept extra e st2 hwfk he hek hst2
      cases failBefore with
      | true =>
          rw [if_pos rfl] at h
          rcases hmo : mk_room (unlnkLru (lru_remove (modelSt mru extra) e).1 e) cap
              (lru_remove (modelSt mru extra) e).2 0 fuel with - | st2
          · rw [hmo] at h
            cases h
          · rw [hmo] at h
            simp only [Option.map_some', Option.some.injEq, Prod.mk.injEq] at h
            rw [← h.1]
            exact hrollback0 st2 hmo
      | false =>
          rw [if_neg (by simp)] at h
          by_cases hnc : newSz > cap
          · rw [if_pos hnc] at h
            rcases hmo : mk_room (unlnkLru (lru_remove (modelSt mru extra) e).1 e) cap
                (lru_remove (modelSt mru extra) e).2 0 fuel with - | st2
            · rw [hmo] at h
              cases h
            · rw [hmo] at h
              simp only [Option.map_some', Option.some.injEq, Prod.mk.injEq] at h
              rw [← h.1]
              exact hrollback0 st2 hmo
          · rw [if_neg hnc] at h
            rcases hmk1 : mk_room (unlnkLru (lru_remove (modelSt mru extra) e).1 e) cap
                (lru_remove (modelSt mru extra) e).2 newSz fuel with - | st1
            · rw [hmk1] at h
              cases h
            · obtain ⟨kept1, dropped1, hkd1, hwfk1, hek1, hlenk1, hst1⟩ :=
                mk_room_model mru' (extra + (lru_remove (modelSt mru extra) e).2)
                  (lru_remove (modelSt mru extra) e).2 newSz cap fuel e _ st1 hwf' he hem'
                  hst0 (by omega) hfuel' hmk1
              have harith3 : extra + (lru_remove (modelSt mru extra) e).2
                  - (lru_remove (modelSt mru extra) e).2 + newSz = extra + newSz := by omega
              rw [harith3] at hst1
              simp only [hmk1] at h
              cases copyFail with
              | true =>
                  rw [if_pos rfl] at h
                  rcases hmk2 : mk_room st1 cap newSz 0 fuel with - | st2
                  · rw [hmk2] at h
                    cases h
                  · obtain ⟨kept2, dropped2, hkd2, hwfk2, hek2, hlenk2, hst2⟩ :=
                      mk_room_model kept1 (extra + newSz) newSz 0 cap fuel e st1 st2 hwfk1
                        he hek1 hst1 (by omega) (by omega) hmk2
                    rw [hmk2] at h
                    simp only [Option.map_some', Option.some.injEq, Prod.mk.injEq] at h
                    rw [← h.1]
                    have harith4 : extra + newSz - newSz + 0 = extra := by omega
                    rw [harith4] at hst2
                    exact chkHolds_model_off kept2 extra e st2 hwfk2 he hek2 hst2
              | false =>
                  rw [if_neg (by simp)] at h
                  simp only [Option.some.injEq, Prod.mk.injEq] at h
                  rw [← h.1]
                  have hfirst := lru_first_model kept1 e newSz (extra + newSz) st1 hwfk1 he
                    hek1 (by omega) hst1
                  have harith5 : extra + newSz - newSz = extra := by omega
                  rw [harith5] at hfirst
                  exact chkHolds_model_on _ extra _
                    (hwfcons newSz kept1 hwfk1 hek1) (fun k _ => hfirst k)

end Lmake

namespace Lmake

/-- C6: if DirCache::upload fails at any point while populating an entry —
failing to write data/deps, an entry too large for the cache (the _mk_room
throw, caught like any other failure), or a failure while copying targets,
including the FileSig-after-copy check — the partial entry files are deleted,
the LRU size accounting is restored as if the entry were never populated (an
e-free chain whose sizes sum to head.sz minus the standing slack, passing
DirCache::chk with the same delta), and upload returns false; and if any dep
of the job carries a date instead of a crc, upload returns false with the
cache state untouched. -/
theorem dircache_upload_rollback
    (mru : List (String × Nat)) (extra cap newSz fuel : Nat) (e : String)
    (deps : List DepDigest) (targets fs : List String) (failBefore copyFail : Bool)
    (hwf : WFmru mru) (he : e ≠ HeadS) (hfuel : mru.length < fuel) :
    ((deps.any fun dd => !dd.is_crc) = true →
      dc_upload ⟨modelSt mru extra, fs⟩ e deps targets cap newSz fuel failBefore copyFail
        = some (⟨modelSt mru extra, fs⟩, false)) ∧
    (∀ c' ok, (deps.any fun dd => !dd.is_crc) = false →
      failBefore = true ∨ newSz > cap ∨ copyFail = true →
      dc_upload ⟨modelSt mru extra, fs⟩ e deps targets cap newSz fuel failBefore copyFail
        = some (c', ok) →
      ok = false ∧ c'.entryFiles = [] ∧
      ∃ kept : List (String × Nat), WFmru kept ∧ e ∉ mruNames kept ∧
        (∀ k, k ≠ e → c'.lru k = modelSt kept extra k) ∧ chkHolds c'.lru extra) := by
  obtain ⟨mru', hwf', hem', hlen', hsum', hall'⟩ := lru_remove_model_all mru e extra hwf he
  have hst0 : ∀ k, k ≠ e →
      unlnkLru (lru_remove (modelSt mru extra) e).1 e k
        = modelSt mru' (extra + (lru_remove (modelSt mru extra) e).2) k := by
    intro k hk
    rw [unlnkLru_other _ _ _ hk]
    exact hall' k hk
  have hfuel' : mru'.length < fuel := by omega
  constructor
  · intro hdep
    unfold dc_upload
    rw [if_pos hdep]
  · intro c' ok hdepf hfc h
    unfold dc_upload at h
    rw [if_neg (show ¬(deps.any fun dd => !dd.is_crc) = true by rw [hdepf] ; simp)] at h
    have hrollback0 : ∀ st2,
        mk_room (unlnkLru (lru_remove (modelSt mru extra) e).1 e) cap
          (lru_remove (modelSt mru extra) e).2 0 fuel = some st2 →
        ∃ kept : List (String × Nat), WFmru kept ∧ e ∉ mruNames kept ∧
          (∀ k, k ≠ e → st2 k = modelSt kept extra k) ∧ chkHolds st2 extra := by
      intro st2 hmk
      obtain ⟨kept, dropped, hkd, hwfk, hek, hlenk, hst2⟩ :=
        mk_room_model mru' (extra + (lru_remove (modelSt mru extra) e).2)
          (lru_remove (modelSt mru extra) e).2 0 cap fuel e _ st2 hwf' he hem' hst0
          (by omega) hfuel' hmk
      have harith2 : extra + (lru_remove (modelSt mru extra) e).2
          - (lru_remove (modelSt mru extra) e).2 + 0 = extra := by omega
      rw [harith2] at hst2
      exact ⟨kept, hwfk, hek, hst2, chkHolds_model_off kept extra e st2 hwfk he hek hst2⟩
    cases failBefore with
    | true =>
        rw [if_pos rfl] at h
        rcases hmo : mk_room (unlnkLru (lru_remove (modelSt mru extra) e).1 e) cap
            (lru_remove (modelSt mru extra) e).2 0 fuel with - | st2
        · rw [hmo] at h
          cases h
        · rw [hmo] at h
          simp only [Option.map_some', Option.some.injEq, Prod.mk.injEq] at h
          obtain ⟨kept, hwfk, hek, hst2, hchk⟩ := hrollback0 st2 hmo
          rw [← h.1]
          exact ⟨h.2.symm, rfl, kept, hwfk, hek, hst2, hchk⟩
    | false =>
        rw [if_neg (by simp)] at h
        by_cases hnc : newSz > cap
        · rw [if_pos hnc] at h
          rcases hmo : mk_room (unlnkLru (lru_remove (modelSt mru extra) e).1 e) cap
              (lru_remove (modelSt mru extra) e).2 0 fuel with - | st2
          · rw [hmo] at h
            cases h
          · rw [hmo] at h
            simp only [Option.map_some', Option.some.injEq, Prod.mk.injEq] at h
            obtain ⟨kept, hwfk, hek, hst2, hchk⟩ := hrollback0 st2 hmo
            rw [← h.1]
            exact ⟨h.2.symm, rfl, kept, hwfk, hek, hst2, hchk⟩
        · rw [if_neg hnc] at h
          rcases hfc with hfc | hfc | hfc
          · cases hfc
          · exact absurd hfc hnc
          rcases hmk1 : mk_room (unlnkLru (lru_remove (modelSt mru extra) e).1 e) cap
              (lru_remove (modelSt mru extra) e).2 newSz fuel with - | st1
          · rw [hmk1] at h
            cases h
          · obtain ⟨kept1, dropped1, hkd1, hwfk1, hek1, hlenk1, hst1⟩ :=
              mk_room_model mru' (extra + (lru_remove (modelSt mru extra) e).2)
                (lru_remove (modelSt mru extra) e).2 newSz cap fuel e _ st1 hwf' he hem'
                hst0 (by omega) hfuel' hmk1
            have harith3 : extra + (lru_remove (modelSt mru extra) e).2
                - (lru_remove (modelSt mru extra) e).2 + newSz = extra + newSz := by omega
            rw [harith3] at hst1
            simp only [hmk1] at h
            rw [if_pos hfc] at h
            rcases hmk2 : mk_room st1 cap newSz 0 fuel with - | st2
            · rw [hmk2] at h
              cases h
            · obtain ⟨kept2, dropped2, hkd2, hwfk2, hek2, hlenk2, hst2⟩ :=
                mk_room_model kept1 (extra + newSz) newSz 0 cap fuel e st1 st2 hwfk1 he
                  hek1 hst1 (by omega) (by omega) hmk2
              rw [hmk2] at h
              simp only [Option.map_some', Option.some.injEq, Prod.mk.injEq] at h
              have harith4 : extra + newSz - newSz + 0 = extra := by omega
              rw [harith4] at hst2
              rw [← h.1]
              exact ⟨h.2.symm, rfl, kept2, hwfk2, hek2, hst2,
                chkHolds_model_off kept2 extra e st2 hwfk2 he hek2 hst2⟩

end Lmake

namespace Lmake

instance (mru : List (String × Nat)) : Decidable (WFmru mru) := by
  unfold WFmru
  infer_instance

theorem dircache_lru_chk_invariant_witness :
    WFmru [("a/", 2)] ∧ ("u/" : String) ≠ HeadS ∧
      ([("a/", 2)] : List (String × Nat)).length < 2 ∧
      (chkHolds (modelSt [("a/", 2)] 0) 0 ∧
       chkHolds (dc_download_lru (modelSt [("a/", 2)] 0) "u/") 0 ∧
       (∀ c' ok,
         dc_upload ⟨modelSt [("a/", 2)] 0, []⟩ "u/" [] [] 10 3 2 false true
           = some (c', ok) →
         chkHolds c'.lru 0)) :=
  ⟨by decide, by decide, by decide,
   dircache_lru_chk_invariant [("a/", 2)] 0 10 3 2 "u/" [] [] [] false true
     (by decide) (by decide) (by decide)⟩

theorem dircache_upload_rollback_witness :
    WFmru [("a/", 2)] ∧ ("u/" : String) ≠ HeadS ∧
      ([("a/", 2)] : List (String × Nat)).length < 2 ∧
      ((([] : List DepDigest).any (fun dd => !dd.is_crc)) = true →
        dc_upload ⟨modelSt [("a/", 2)] 0, []⟩ "u/" [] [] 10 3 2 true false
          = some (⟨modelSt [("a/", 2)] 0, []⟩, false)) ∧
      (∀ c' ok, (([] : List DepDigest).any (fun dd => !dd.is_crc)) = false →
        (true : Bool) = true ∨ 3 > 10 ∨ (false : Bool) = true →
        dc_upload ⟨modelSt [("a/", 2)] 0, []⟩ "u/" [] [] 10 3 2 true false
          = some (c', ok) →
        ok = false ∧ c'.entryFiles = [] ∧
        ∃ kept : List (String × Nat), WFmru kept ∧ "u/" ∉ mruNames kept ∧
          (∀ k, k ≠ "u/" → c'.lru k = modelSt kept 0 k) ∧ chkHolds c'.lru 0) := by
  have h := dircache_upload_rollback [("a/", 2)] 0 10 3 2 "u/" [] [] [] true false
    (by decide) (by decide) (by decide)
  exact ⟨by decide, by decide, by decide, h.1, h.2⟩

end Lmake

namespace Lmake

/-- Modelled from the spec: the RunAction enum of the make machinery
(None < Makable < Status < Dsk < Run, spec section 4.4); its declaration is in
code missing from src/ (only its uses appear, in src/lmakeserver/job.x.hh). -/
inductive RunAction where
| none
| makable
| status
| dsk
| run
deriving DecidableEq

def RunAction.toNat : RunAction → Nat
| RunAction.none => 0
| RunAction.makable => 1
| RunAction.status => 2
| RunAction.dsk => 3
| RunAction.run => 4

/-- The enum operator | : max in declaration order. -/
def RunAction.sup (a b : RunAction) : RunAction :=
  if a.toNat ≤ b.toNat then b else a

/-- Modelled from the spec: the JobLvl enum (None → Dep → Queued → Exec → End →
Done, spec section 4.4); its declaration is in code missing from src/. -/
inductive JobLvl where
| none
| dep
| queued
| exec
| end_
| done
deriving DecidableEq

def JobLvl.toNat : JobLvl → Nat
| JobLvl.none => 0
| JobLvl.dep => 1
| JobLvl.queued => 2
| JobLvl.exec => 3
| JobLvl.end_ => 4
| JobLvl.done => 5

/-- The enum operator & : min in declaration order. -/
def JobLvl.inf (a b : JobLvl) : JobLvl :=
  if a.toNat ≤ b.toNat then a else b

/-- JobMakeAction (src/lmakeserver/job.x.hh:29-35): None < Wakeup < End <
PrematureEnd, with the alias Dec = Wakeup. -/
inductive JobMakeAction where
| none
| wakeup
| end_
| prematureEnd
deriving DecidableEq

def JobMakeAction.toNat : JobMakeAction → Nat
| JobMakeAction.none => 0
| JobMakeAction.wakeup => 1
| JobMakeAction.end_ => 2
| JobMakeAction.prematureEnd => 3

/-- The parts of the job and request environment read by JobReqInfo::update:
job->status<=Status::Garbage, job->sure(), and ri.req->zombie. -/
structure JobCtx where
  garbage : Bool
  sure : Bool
  zombie : Bool
deriving DecidableEq

/-- The ReqInfo fields driven by update: n_wait and action live in the ReqInfo
base class (Modelled from the spec: the base is in code missing from src/);
dep_lvl, done_ and lvl are from JobReqInfo (src/lmakeserver/job.x.hh:288-292). -/
structure JobRI where
  n_wait : Nat
  action : RunAction
  lvl : JobLvl
  dep_lvl : Nat
  done_ : RunAction
deriving DecidableEq

/-- src/lmakeserver/job.x.hh:413: a garbage status promotes a Status-or-deeper
run action to Run. -/
def promoteRA (garbage : Bool) (ra : RunAction) : RunAction :=
  if garbage ∧ RunAction.status.toNat ≤ ra.toNat then RunAction.run else ra

/-- src/lmakeserver/job.x.hh:418-422: an increasing action resets the checks. -/
def updStep2 (ri : JobRI) (ra : RunAction) : JobRI :=
  if ri.action.toNat < ra.toNat then
    { ri with lvl := JobLvl.inf ri.lvl JobLvl.dep, dep_lvl := 0, action := ra }
  else ri

/-- src/lmakeserver/job.x.hh:423-436: the n_wait / termination analysis of
update, with the SWEAR(make_action<End) failure as none. -/
def updStep3 (ri : JobRI) (ra : RunAction) (ma : JobMakeAction) (job : JobCtx) :
    Option JobRI :=
  if ri.n_wait ≠ 0 then
    if JobMakeAction.end_.toNat ≤ ma.toNat then Option.none
    else some ri
  else if job.zombie ∨ ma = JobMakeAction.prematureEnd
      ∨ (ri.action = RunAction.makable ∧ job.sure) then
    some { ri with lvl := JobLvl.done, done_ := RunAction.sup ri.done_ ri.action }
  else if ma = JobMakeAction.end_ then
    some { ri with lvl := JobLvl.inf ri.lvl JobLvl.dep, dep_lvl := 0, action := ra }
  else some ri

/-- The trailing SWEAR(lvl!=End) of update. -/
def updFinal : Option JobRI → Option JobRI
| Option.none => Option.none
| Option.some r => if r.lvl = JobLvl.end_ then Option.none else some r

/-- JobReqInfo::update (src/lmakeserver/job.x.hh:412-438): promote the run
action on a garbage status, decrement n_wait when make_action >= Dec (the
SWEAR(n_wait) failure as none), reset the checks on an increasing action, then
settle lvl/done_. -/
def JobRI.update (ri : JobRI) (ra0 : RunAction) (ma : JobMakeAction) (job : JobCtx) :
    Option JobRI :=
  if JobMakeAction.wakeup.toNat ≤ ma.toNat then
    if ri.n_wait = 0 then Option.none
    else updFinal (updStep3 (updStep2 { ri with n_wait := ri.n_wait - 1 }
      (promoteRA job.garbage ra0)) (promoteRA job.garbage ra0) ma job)
  else updFinal (updStep3 (updStep2 ri (promoteRA job.garbage ra0))
    (promoteRA job.garbage ra0) ma job)

/-- The exit taken by the dep-analysis loop of _make_raw. -/
inductive DepOutcome where
| waits
| submits
| completes
deriving DecidableEq

/-- Job::make (src/lmakeserver/job.x.hh:358-361) with the effect of _make_raw
(src/lmakeserver/job.cc:624-875) on the ReqInfo fields: fast path when already
done at run_action with no make_action; otherwise update, early return while
waiting, Wakeup when done at the current action; else the dep analysis runs
from level None/Dep (any other level is FAIL, modelled as none) and exits by
blocking on a watched dep (Wait at level Dep with the watcher count raised —
Modelled from the spec: ReqInfo::add_watcher, in code missing from src/,
increments the watcher's n_wait), by queueing the job (_submit_plain,
src/lmakeserver/job.cc:1070-1071: lvl=Queued, n_wait++), or by completing the
analysis (src/lmakeserver/job.cc:849-850: lvl=Done, done_ |= action). -/
def Job.make' (ri : JobRI) (ra : RunAction) (ma : JobMakeAction) (job : JobCtx)
    (outcome : DepOutcome) : Option JobRI :=
  if ra.toNat ≤ ri.done_.toNat ∧ ma = JobMakeAction.none then some ri
  else match ri.update ra ma job with
    | Option.none => Option.none
    | Option.some ri1 =>
      if ri1.n_wait ≠ 0 then some ri1
      else if ri1.action.toNat ≤ ri1.done_.toNat then some ri1
      else match ri1.lvl with
        | JobLvl.none | JobLvl.dep =>
          match outcome with
          | DepOutcome.waits =>
              some { ri1 with lvl := JobLvl.dep, n_wait := ri1.n_wait + 1 }
          | DepOutcome.submits =>
              some { ri1 with lvl := JobLvl.queued, n_wait := ri1.n_wait + 1 }
          | DepOutcome.completes =>
              some { ri1 with
                lvl := JobLvl.done
                done_ := RunAction.sup ri1.done_ ri1.action }
        | _ => Option.none

end Lmake

namespace Lmake

theorem RunAction.sup_le_left (a b : RunAction) : a.toNat ≤ (RunAction.sup a b).toNat := by
  unfold RunAction.sup
  split_ifs with h
  · exact h
  · exact le_refl _

theorem JobLvl.toNat_le_done (l : JobLvl) : l.toNat ≤ JobLvl.done.toNat := by
  cases l <;> decide

theorem updFinal_some (o : Option JobRI) (r : JobRI) (h : updFinal o = some r) :
    o = some r := by
  rcases o with - | r'
  · cases h
  · have h' : (if r'.lvl = JobLvl.end_ then Option.none else some r') = some r := h
    split_ifs at h' with hl
    exact h'

theorem updStep2_done_eq (ri : JobRI) (ra : RunAction) :
    (updStep2 ri ra).done_ = ri.done_ := by
  unfold updStep2
  split_ifs <;> rfl

theorem updStep2_of_le (ri : JobRI) (ra : RunAction) (h : ra.toNat ≤ ri.action.toNat) :
    updStep2 ri ra = ri := by
  unfold updStep2
  rw [if_neg (by omega)]

theorem updStep3_facts (ri ri1 : JobRI) (ra : RunAction) (ma : JobMakeAction) (job : JobCtx)
    (h : updStep3 ri ra ma job = some ri1) :
    ri.done_.toNat ≤ ri1.done_.toNat ∧
    (ma ≠ JobMakeAction.end_ → ri.lvl.toNat ≤ ri1.lvl.toNat) := by
  unfold updStep3 at h
  split_ifs at h with h1 h2 h3 h4
  · injection h with h
    subst h
    exact ⟨le_refl _, fun _ => le_refl _⟩
  · injection h with h
    subst h
    exact ⟨RunAction.sup_le_left _ _, fun _ => JobLvl.toNat_le_done _⟩
  · injection h with h
    subst h
    exact ⟨le_refl _, fun hne => absurd h4 hne⟩
  · injection h with h
    subst h
    exact ⟨le_refl _, fun _ => le_refl _⟩

/-- What JobReqInfo::update guarantees: done_ never decreases, and lvl does not
decrease unless the (promoted) run action strictly exceeds the accumulated
action or the job just ended (make_action End). -/
theorem JobRI.update_facts (ri ri1 : JobRI) (ra : RunAction) (ma : JobMakeAction)
    (job : JobCtx) (h : JobRI.update ri ra ma job = some ri1) :
    ri.done_.toNat ≤ ri1.done_.toNat ∧
    ((promoteRA job.garbage ra).toNat ≤ ri.action.toNat → ma ≠ JobMakeAction.end_ →
      ri.lvl.toNat ≤ ri1.lvl.toNat) := by
  unfold JobRI.update at h
  split_ifs at h with h1 h2
  · have h' := updFinal_some _ _ h
    have hs3 := updStep3_facts _ _ _ _ _ h'
    constructor
    · have hd : ri.done_ = (updStep2 { ri with n_wait := ri.n_wait - 1 }
          (promoteRA job.garbage ra)).done_ :=
        (updStep2_done_eq { ri with n_wait := ri.n_wait - 1 }
          (promoteRA job.garbage ra)).symm
      rw [hd]
      exact hs3.1
    · intro hle hne
      rw [updStep2_of_le { ri with n_wait := ri.n_wait - 1 }
        (promoteRA job.garbage ra) hle] at hs3
      exact hs3.2 hne
  · have h' := updFinal_some _ _ h
    have hs3 := updStep3_facts _ _ _ _ _ h'
    constructor
    · have hd : ri.done_ = (updStep2 ri (promoteRA job.garbage ra)).done_ :=
        (updStep2_done_eq _ _).symm
      rw [hd]
      exact hs3.1
    · intro hle hne
      rw [updStep2_of_le ri (promoteRA job.garbage ra) hle] at hs3
      exact hs3.2 hne

end Lmake

namespace Lmake

/-- C4: counterexample to "neither ri.lvl nor ri.done_ ever decreases under
non-decreasing actions".  A job sure() and done at Makable (lvl=Done,
done_=Makable) receives make(Status) — a higher action, so the sequence
Makable, Status is non-decreasing — and update resets lvl to Dep
(lvl = lvl & Dep since run_action > action); with a dep to wait for, the call
completes with lvl=Dep < Done.  done_ is untouched. -/
theorem job_make_monotonic_counterexample :
    Job.make' ⟨0, RunAction.none, JobLvl.none, 0, RunAction.none⟩ RunAction.makable
        JobMakeAction.none ⟨false, true, false⟩ DepOutcome.completes
      = some ⟨0, RunAction.makable, JobLvl.done, 0, RunAction.makable⟩ ∧
    Job.make' ⟨0, RunAction.makable, JobLvl.done, 0, RunAction.makable⟩ RunAction.status
        JobMakeAction.none ⟨false, true, false⟩ DepOutcome.waits
      = some ⟨1, RunAction.status, JobLvl.dep, 0, RunAction.makable⟩ ∧
    RunAction.makable.toNat ≤ RunAction.status.toNat ∧
    JobLvl.dep.toNat < JobLvl.done.toNat := by
  refine ⟨?_, ?_, ?_, ?_⟩ <;> decide

/-- C4 (amended): across any completed Job::make call, done_ never decreases;
and lvl never decreases provided the effective (garbage-promoted) run action
does not exceed the action already accumulated in the ReqInfo and the call
does not report the end of the job (make_action End) — the two cases in which
update deliberately resets the analysis level to Dep. -/
theorem job_make_monotonicity (ri ri' : JobRI) (ra : RunAction) (ma : JobMakeAction)
    (job : JobCtx) (outcome : DepOutcome)
    (h : Job.make' ri ra ma job outcome = some ri') :
    ri.done_.toNat ≤ ri'.done_.toNat ∧
    ((promoteRA job.garbage ra).toNat ≤ ri.action.toNat → ma ≠ JobMakeAction.end_ →
      ri.lvl.toNat ≤ ri'.lvl.toNat) := by
  unfold Job.make' at h
  by_cases hfast : ra.toNat ≤ ri.done_.toNat ∧ ma = JobMakeAction.none
  · rw [if_pos hfast] at h
    injection h with h
    subst h
    exact ⟨le_refl _, fun _ _ => le_refl _⟩
  · rw [if_neg hfast] at h
    rcases hupd : JobRI.update ri ra ma job with - | ri1
    · rw [hupd] at h
      cases h
    · simp only [hupd] at h
      have hu := JobRI.update_facts ri ri1 ra ma job hupd
      by_cases hw : ri1.n_wait ≠ 0
      · rw [if_pos hw] at h
        injection h with h
        subst h
        exact hu
      · rw [if_neg hw] at h
        by_cases hdone : ri1.action.toNat ≤ ri1.done_.toNat
        · rw [if_pos hdone] at h
          injection h with h
          subst h
          exact hu
        · rw [if_neg hdone] at h
          rcases hlvl : ri1.lvl with - | - | - | - | - | -
          · simp only [hlvl] at h
            cases outcome
            · injection h with h
              subst h
              refine ⟨hu.1, fun hle hne => le_trans (hu.2 hle hne) ?_⟩
              rw [hlvl]
              simp [JobLvl.toNat]
            · injection h with h
              subst h
              refine ⟨hu.1, fun hle hne => le_trans (hu.2 hle hne) ?_⟩
              rw [hlvl]
              simp [JobLvl.toNat]
            · injection h with h
              subst h
              refine ⟨le_trans hu.1 (RunAction.sup_le_left ri1.done_ ri1.action),
                fun hle hne => le_trans (hu.2 hle hne) (JobLvl.toNat_le_done ri1.lvl)⟩
          · simp only [hlvl] at h
            cases outcome
            · injection h with h
              subst h
              refine ⟨hu.1, fun hle hne => le_trans (hu.2 hle hne) ?_⟩
              rw [hlvl]
            · injection h with h
              subst h
              refine ⟨hu.1, fun hle hne => le_trans (hu.2 hle hne) ?_⟩
              rw [hlvl]
              simp [JobLvl.toNat]
            · injection h with h
              subst h
              refine ⟨le_trans hu.1 (RunAction.sup_le_left ri1.done_ ri1.action),
                fun hle hne => le_trans (hu.2 hle hne) (JobLvl.toNat_le_done ri1.lvl)⟩
          · simp only [hlvl] at h
            cases h
          · simp only [hlvl] at h
            cases h
          · simp only [hlvl] at h
            cases h
          · simp only [hlvl] at h
            cases h

theorem job_make_monotonicity_witness :
    Job.make' ⟨0, RunAction.status, JobLvl.dep, 0, RunAction.makable⟩ RunAction.status
        JobMakeAction.none ⟨false, false, false⟩ DepOutcome.completes
      = some ⟨0, RunAction.status, JobLvl.done, 0, RunAction.status⟩ ∧
    (RunAction.makable.toNat ≤ RunAction.status.toNat ∧
     JobLvl.dep.toNat ≤ JobLvl.done.toNat) :=
  ⟨by decide,
   (job_make_monotonicity ⟨0, RunAction.status, JobLvl.dep, 0, RunAction.makable⟩
      ⟨0, RunAction.status, JobLvl.done, 0, RunAction.status⟩ RunAction.status
      JobMakeAction.none ⟨false, false, false⟩ DepOutcome.completes (by decide)).imp
    (fun h1 => h1) (fun h2 => h2 (by decide) (by decide))⟩

end Lmake

namespace Lmake

/-- JobReqInfo::chk (src/lmakeserver/job.x.hh:277-286): the asserted relation
between n_wait and lvl (done_ bounded by Dsk; None/Done wait nothing;
Queued/Exec wait exactly the job execution; any other level waits something). -/
def JobRI.chk (ri : JobRI) : Bool :=
  (ri.done_.toNat ≤ RunAction.dsk.toNat) &&
  (match ri.lvl with
   | JobLvl.none => ri.n_wait == 0
   | JobLvl.done => ri.n_wait == 0
   | JobLvl.queued => ri.n_wait == 1
   | JobLvl.exec => ri.n_wait == 1
   | _ => ri.n_wait != 0)

/-- A ReqInfo together with the number of deps the job is registered as
watcher of (Modelled from the spec: watchers live in the ReqInfo base, in
code missing from src/). -/
structure JobRIW where
  ri : JobRI
  watched : Nat

/-- The ReqInfo effect of queueing a job in _submit_plain
(src/lmakeserver/job.cc:1070-1071): one more wait — for the job execution —
and level Queued; no dep watcher is registered. -/
def submitPlainQueue (s : JobRIW) : JobRIW :=
  ⟨{ s.ri with n_wait := s.ri.n_wait + 1, lvl := JobLvl.queued }, s.watched⟩

/-- C8: counterexample to "at any level other than None/Done, n_wait equals
the number of watched deps".  A job whose dep analysis completed with no dep
left to watch gets queued by _submit_plain: its ReqInfo passes chk with
n_wait = 1 (the pending job execution) at level Queued while it watches 0
deps, so n_wait differs from the watched-dep count. -/
theorem reqinfo_nwait_counterexample :
    JobRI.chk (submitPlainQueue ⟨⟨0, RunAction.run, JobLvl.dep, 0, RunAction.none⟩, 0⟩).ri
      = true ∧
    (submitPlainQueue ⟨⟨0, RunAction.run, JobLvl.dep, 0, RunAction.none⟩, 0⟩).ri.lvl
      ≠ JobLvl.none ∧
    (submitPlainQueue ⟨⟨0, RunAction.run, JobLvl.dep, 0, RunAction.none⟩, 0⟩).ri.lvl
      ≠ JobLvl.done ∧
    (submitPlainQueue ⟨⟨0, RunAction.run, JobLvl.dep, 0, RunAction.none⟩, 0⟩).ri.n_wait
      ≠ (submitPlainQueue ⟨⟨0, RunAction.run, JobLvl.dep, 0, RunAction.none⟩, 0⟩).watched
    := by decide

/-- C8 (amended): what chk verifies and the code maintains: n_wait = 0 exactly
at levels None and Done; at Queued and Exec n_wait = 1 (the job execution, not
a dep count); at the remaining levels n_wait is positive. -/
theorem reqinfo_nwait_invariant (ri : JobRI) (h : ri.chk = true) :
    (ri.n_wait = 0 ↔ (ri.lvl = JobLvl.none ∨ ri.lvl = JobLvl.done)) ∧
    ((ri.lvl = JobLvl.queued ∨ ri.lvl = JobLvl.exec) → ri.n_wait = 1) ∧
    ((ri.lvl = JobLvl.dep ∨ ri.lvl = JobLvl.end_) → 0 < ri.n_wait) := by
  unfold JobRI.chk at h
  rcases hlvl : ri.lvl with - | - | - | - | - | - <;>
    rw [hlvl] at h <;> simp_all <;> omega

theorem reqinfo_nwait_invariant_witness :
    JobRI.chk ⟨1, RunAction.run, JobLvl.queued, 0, RunAction.none⟩ = true ∧
    (((1 : Nat) = 0 ↔ (JobLvl.queued = JobLvl.none ∨ JobLvl.queued = JobLvl.done)) ∧
     ((JobLvl.queued = JobLvl.queued ∨ JobLvl.queued = JobLvl.exec) → (1 : Nat) = 1) ∧
     ((JobLvl.queued = JobLvl.dep ∨ JobLvl.queued = JobLvl.end_) → 0 < (1 : Nat))) :=
  ⟨by decide,
   reqinfo_nwait_invariant ⟨1, RunAction.run, JobLvl.queued, 0, RunAction.none⟩ (by decide)⟩

end Lmake

namespace Lmake

/-- The request registry ordering by eta (src/lmakeserver/req.cc):
_s_reqs_by_eta as a list of request ids, each request's stored idx_by_eta,
and each request's eta. -/
structure EtaReg where
  byEta : List Nat
  idxByEta : Nat → Nat
  eta : Nat → Nat

/-- The eta-decreased while loop of Req::_adjust_eta
(src/lmakeserver/req.cc:148-152), as written: the local idx_by_eta variable is
captured before the loop and never changed inside it.  Swaps the entry at
idx-1 up and the request down, updating the stored indices; the flag mirrors
`changed`.  Fuel bounds the iteration count (the loop exits by itself once the
condition re-reads the request's own slot). -/
def adjDecLoop (r idx : Nat) :
    List Nat → (Nat → Nat) → (Nat → Nat) → Bool → Nat →
      (List Nat × (Nat → Nat) × Bool)
| byEta, idxF, _, changed, 0 => (byEta, idxF, changed)
| byEta, idxF, eta, changed, fuel + 1 =>
  if 0 < idx ∧ eta r < eta (byEta.getD (idx - 1) 0) then
    adjDecLoop r idx
      ((byEta.set idx (byEta.getD (idx - 1) 0)).set (idx - 1) r)
      (fun k => if k = byEta.getD (idx - 1) 0 then idx
                else if k = r then idx - 1 else idxF k)
      eta true fuel
  else (byEta, idxF, changed)

/-- The eta-increased while loop of Req::_adjust_eta
(src/lmakeserver/req.cc:153-158), as written (same never-changing local idx). -/
def adjIncLoop (r idx : Nat) :
    List Nat → (Nat → Nat) → (Nat → Nat) → Bool → Nat →
      (List Nat × (Nat → Nat) × Bool)
| byEta, idxF, _, changed, 0 => (byEta, idxF, changed)
| byEta, idxF, eta, changed, fuel + 1 =>
  if idx + 1 < byEta.length ∧ eta (byEta.getD (idx + 1) 0) < eta r then
    adjIncLoop r idx
      ((byEta.set idx (byEta.getD (idx + 1) 0)).set (idx + 1) r)
      (fun k => if k = byEta.getD (idx + 1) 0 then idx
                else if k = r then idx + 1 else idxF k)
      eta true fuel
  else (byEta, idxF, changed)

/-- Req::_adjust_eta (src/lmakeserver/req.cc:140-162) without push_self, with
now = 0 so the new eta is the new ete: update the request's eta, then run the
decrease loop and, if it did not change anything, the increase loop. -/
def adjustEta (reg : EtaReg) (r newEta fuel : Nat) : EtaReg :=
  match adjDecLoop r (reg.idxByEta r) reg.byEta reg.idxByEta
      (fun k => if k = r then newEta else reg.eta k) false fuel with
  | (b1, i1, changed) =>
    if changed then ⟨b1, i1, fun k => if k = r then newEta else reg.eta k⟩
    else
      match adjIncLoop r (reg.idxByEta r) b1 i1
          (fun k => if k = r then newEta else reg.eta k) false fuel with
      | (b2, i2, _) => ⟨b2, i2, fun k => if k = r then newEta else reg.eta k⟩

/-- Adjacent-pairs sortedness by eta. -/
def etaSortedB (eta : Nat → Nat) : List Nat → Bool
| a :: b :: rest => (eta a ≤ eta b : Bool) && etaSortedB eta (b :: rest)
| _ => true

/-- The eta-sortedness of the registry the code relies on. -/
def etaSorted (reg : EtaReg) : Prop :=
  etaSortedB reg.eta reg.byEta = true

instance (reg : EtaReg) : Decidable (etaSorted reg) :=
  inferInstanceAs (Decidable (etaSortedB reg.eta reg.byEta = true))

/-- The registry with three open requests 1, 2, 3 with etas 1, 5, 9 in eta
order, stored indices consistent. -/
def reg0 : EtaReg :=
  ⟨[1, 2, 3], fun k => k - 1, fun k => if k = 1 then 1 else if k = 2 then 5 else 9⟩

/-- C10: the registry sortedness is broken by Req::_adjust_eta.  The local
idx_by_eta captured at src/lmakeserver/req.cc:146 is never advanced inside
either while loop, so after one swap the loop re-reads the request's own slot
and stops: each loop swaps at most once.  With requests at etas [1, 5, 9] and
the third request's eta dropping to 0, the list ends as [1, 0, 5] — not
sorted — although the stored indices still match positions.  (Req::close
itself, src/lmakeserver/req.cc:101-109, does preserve the invariant.) -/
theorem req_adjust_eta_code_bug :
    (adjustEta reg0 3 0 5).byEta = [1, 3, 2] ∧
    (adjustEta reg0 3 0 5).byEta.map (adjustEta reg0 3 0 5).eta = [1, 0, 5] ∧
    ((adjustEta reg0 3 0 5).idxByEta 1 = 0 ∧ (adjustEta reg0 3 0 5).idxByEta 3 = 1 ∧
     (adjustEta reg0 3 0 5).idxByEta 2 = 2) ∧
    etaSorted reg0 ∧ ¬ etaSorted (adjustEta reg0 3 0 5) := by
  decide

end Lmake
